import Mathlib

/-!
Verification of the distributed vector-search service (M-Tree workers,
consistent-hash ring, scatter-gather coordinator) against its
natural-language specification.

Numeric values computed by the program are modelled as exact rationals;
the external numeric library's square root (used only inside norms) is
passed as an explicit function parameter, mirroring the spec's stance
that the numeric array library is an external collaborator.
-/

namespace VecSearch

/-- Elementwise difference of two equal-length vectors (numpy `vec1 - vec2`). -/
def vsub (v1 v2 : List ℚ) : List ℚ := List.zipWith (· - ·) v1 v2

/-- Dot product (numpy `np.dot`). -/
def dot (v1 v2 : List ℚ) : ℚ := (List.zipWith (· * ·) v1 v2).sum

/-- Sum of squares of the entries; `np.linalg.norm v = sqrt (sumSq v)`. -/
def sumSq (v : List ℚ) : ℚ := (v.map (fun x => x * x)).sum

/-- `src/common/utils.py::euclidean_distance`: raises `ValueError` on a shape
mismatch, otherwise returns `np.linalg.norm(vec1_data - vec2_data)`.
`sqrt` is the external library's square-root routine. -/
def euclidean_distance (sqrt : ℚ → ℚ) (v1 v2 : List ℚ) : Except String ℚ :=
  if v1.length ≠ v2.length then
    .error "ValueError: Los vectores deben tener la misma dimension"
  else
    .ok (sqrt (sumSq (vsub v1 v2)))

/-- `src/common/utils.py::cosine_similarity`: raises `ValueError` on a shape
mismatch; returns `0.0` when either operand has zero norm; otherwise
`dot / (norm_a * norm_b)`. -/
def cosine_similarity (sqrt : ℚ → ℚ) (v1 v2 : List ℚ) : Except String ℚ :=
  if v1.length ≠ v2.length then
    .error "ValueError: Los vectores deben tener la misma dimension"
  else
    let norm_a := sqrt (sumSq v1)
    let norm_b := sqrt (sumSq v2)
    if norm_a = 0 ∨ norm_b = 0 then
      .ok 0
    else
      .ok (dot v1 v2 / (norm_a * norm_b))

/-- Python `str.lower()` (characterwise lowercasing). -/
def strLower (s : String) : String := ⟨s.data.map Char.toLower⟩

/-- `src/common/utils.py::get_distance_metric`: `'euclidean'` maps to
`euclidean_distance`, `'cosine'` maps to `fun v1 v2 => 1 - cosine_similarity v1 v2`,
anything else raises `ValueError`. -/
def get_distance_metric (sqrt : ℚ → ℚ) (metric_name : String) :
    Except String (List ℚ → List ℚ → Except String ℚ) :=
  if strLower metric_name = "euclidean" then
    .ok (euclidean_distance sqrt)
  else if strLower metric_name = "cosine" then
    .ok (fun v1 v2 => (cosine_similarity sqrt v1 v2).map (fun s => 1 - s))
  else
    .error "ValueError: Metrica de distancia no soportada"

/-- `src/common/models.py::Vector`: non-empty string id, one-dimensional
float32 data, opaque JSON-shaped metadata (modelled as key/value pairs). -/
structure Vector where
  id : String
  data : List ℚ
  metadata : List (String × String)
deriving DecidableEq, Repr

/-- The `Vector.__init__` validation: a `ValueError` for an empty id
(`Vector ID must be a non-empty string`); list data is accepted as is. -/
def mkVector (id : String) (data : List ℚ) (metadata : List (String × String)) :
    Except String Vector :=
  if id = "" then .error "ValueError: Vector ID must be a non-empty string."
  else .ok { id := id, data := data, metadata := metadata }

/-- The JSON dictionary shape accepted by `Vector.from_dict`:
the `id` and `vector` keys may be absent. -/
structure VDict where
  id : Option String
  vector : Option (List ℚ)
  metadata : List (String × String)
deriving DecidableEq, Repr

/-- `src/common/models.py::Vector.from_dict`: requires `id` and `vector` keys,
then runs the `Vector` constructor. -/
def Vector.from_dict (d : VDict) : Except String Vector :=
  match d.id, d.vector with
  | some i, some v => mkVector i v d.metadata
  | _, _ => .error "ValueError: Dictionary must contain id and vector keys."

/-- `src/common/models.py::Vector.to_dict`. -/
def Vector.to_dict (v : Vector) : VDict :=
  { id := some v.id, vector := some v.data, metadata := v.metadata }

/-- `src/common/models.py::SearchResult`: a found vector plus its distance. -/
structure SearchResult where
  vector : Vector
  distance : ℚ
deriving DecidableEq, Repr

/-- `SearchResult.__lt__`: compares by distance only. -/
def SearchResult.lt (a b : SearchResult) : Bool := a.distance < b.distance

/-- One element of the serialized `vector_data_snippet` list: either a number
or the literal string `'...'` appended when the vector is truncated. -/
inductive SnippetItem where
  | num (x : ℚ)
  | ellipsis
deriving DecidableEq, Repr

/-- The dictionary produced by `SearchResult.to_dict` / consumed by
`SearchResult.from_dict`. The optional `vector` key is only ever read by
`from_dict` (it is never emitted by `to_dict`). -/
structure SRDict where
  vector_id : String
  distance : ℚ
  vector_data_snippet : List SnippetItem
  metadata : List (String × String)
  vector : Option (List ℚ)
deriving DecidableEq, Repr

/-- `src/common/models.py::SearchResult.to_dict`: serializes the id, the
distance, the metadata, and a `vector_data_snippet` that is the full data
list when `len(data) ≤ 5` and `data[:5] + ['...']` otherwise. -/
def SearchResult.to_dict (r : SearchResult) : SRDict :=
  { vector_id := r.vector.id
    distance := r.distance
    vector_data_snippet :=
      if r.vector.data.length > 5 then
        (r.vector.data.take 5).map SnippetItem.num ++ [SnippetItem.ellipsis]
      else
        r.vector.data.map SnippetItem.num
    metadata := r.vector.metadata
    vector := none }

/-- Numeric payload of a snippet item (for rebuilding a vector from a
snippet that contains no `'...'` marker, every item is a number). -/
def SnippetItem.toNum : SnippetItem → ℚ
  | .num x => x
  | .ellipsis => 0

/-- `src/common/models.py::SearchResult.from_dict`: prefers the full `vector`
key; otherwise uses `vector_data_snippet`. When the snippet contains the
`'...'` marker the code calls `logger.warning`, but `models.py` never imports
`logger`, so that branch raises `NameError` instead of building the
documented dummy vector. -/
def SearchResult.from_dict (d : SRDict) : Except String SearchResult :=
  match d.vector with
  | some vdata =>
      (mkVector d.vector_id vdata d.metadata).map (fun v => ⟨v, d.distance⟩)
  | none =>
      if SnippetItem.ellipsis ∈ d.vector_data_snippet then
        .error "NameError: name 'logger' is not defined"
      else
        (mkVector d.vector_id (d.vector_data_snippet.map SnippetItem.toNum)
          d.metadata).map (fun v => ⟨v, d.distance⟩)

/-! ## SHA-1 (`hashlib.sha1`), modelled bit-exactly over `Nat` -/

/-- 32-bit left rotation. -/
def rotl32 (s x : Nat) : Nat := ((x <<< s) ||| (x >>> (32 - s))) % 2 ^ 32

/-- UTF-8 encoding of a single code point. -/
def utf8Char (c : Nat) : List Nat :=
  if c < 0x80 then [c]
  else if c < 0x800 then [0xC0 ||| (c >>> 6), 0x80 ||| (c &&& 0x3F)]
  else if c < 0x10000 then
    [0xE0 ||| (c >>> 12), 0x80 ||| ((c >>> 6) &&& 0x3F), 0x80 ||| (c &&& 0x3F)]
  else
    [0xF0 ||| (c >>> 18), 0x80 ||| ((c >>> 12) &&& 0x3F),
     0x80 ||| ((c >>> 6) &&& 0x3F), 0x80 ||| (c &&& 0x3F)]

/-- `key.encode('utf-8')` as a byte list. -/
def utf8Encode (s : String) : List Nat := s.data.flatMap (fun c => utf8Char c.toNat)

/-- Big-endian byte serialization of `x` on `n` bytes. -/
def beBytes : Nat → Nat → List Nat
  | 0, _ => []
  | n + 1, x => beBytes n (x >>> 8) ++ [x &&& 0xFF]

/-- Split a list into consecutive chunks of `size` elements
(fuel-indexed so that it reduces in the kernel). -/
def chunksAux (size : Nat) : Nat → List Nat → List (List Nat)
  | 0, _ => []
  | _, [] => []
  | fuel + 1, l => l.take size :: chunksAux size fuel (l.drop size)

/-- Split a list into consecutive chunks of `size` elements. -/
def chunks (size : Nat) (l : List Nat) : List (List Nat) := chunksAux size l.length l

/-- A big-endian 32-bit word from four bytes. -/
def beWord (bs : List Nat) : Nat := bs.foldl (fun a b => a * 256 + b) 0

/-- SHA-1 message schedule: extend 16 words to 80 words. -/
def extendWords (ws : List Nat) : List Nat :=
  (List.range 64).foldl
    (fun ws _ =>
      ws ++ [rotl32 1 ((ws.getD (ws.length - 3) 0) ^^^ (ws.getD (ws.length - 8) 0) ^^^
        (ws.getD (ws.length - 14) 0) ^^^ (ws.getD (ws.length - 16) 0))])
    ws

/-- SHA-1 round function (complement taken inside 32 bits). -/
def sha1F (i b c d : Nat) : Nat :=
  if i < 20 then (b &&& c) ||| ((b ^^^ 0xFFFFFFFF) &&& d)
  else if i < 40 then b ^^^ c ^^^ d
  else if i < 60 then (b &&& c) ||| (b &&& d) ||| (c &&& d)
  else b ^^^ c ^^^ d

/-- SHA-1 round constants. -/
def sha1K (i : Nat) : Nat :=
  if i < 20 then 0x5A827999 else if i < 40 then 0x6ED9EBA1
  else if i < 60 then 0x8F1BBCDC else 0xCA62C1D6

/-- One SHA-1 compression round on the `(a, b, c, d, e)` state. -/
def sha1Round (st : Nat × Nat × Nat × Nat × Nat) (iw : Nat × Nat) :
    Nat × Nat × Nat × Nat × Nat :=
  let (a, b, c, d, e) := st
  let (i, w) := iw
  let temp := (rotl32 5 a + sha1F i b c d + e + sha1K i + w) % 2 ^ 32
  (temp, a, rotl32 30 b, c, d)

/-- Process one padded 64-byte chunk. -/
def sha1Chunk (h : Nat × Nat × Nat × Nat × Nat) (chunk : List Nat) :
    Nat × Nat × Nat × Nat × Nat :=
  let ws := extendWords ((chunks 4 chunk).map beWord)
  let (a, b, c, d, e) := ws.enum.foldl sha1Round h
  let (h0, h1, h2, h3, h4) := h
  ((h0 + a) % 2 ^ 32, (h1 + b) % 2 ^ 32, (h2 + c) % 2 ^ 32,
   (h3 + d) % 2 ^ 32, (h4 + e) % 2 ^ 32)

/-- SHA-1 over a byte string: pad, then compress chunkwise. -/
def sha1Bytes (msg : List Nat) : Nat × Nat × Nat × Nat × Nat :=
  let bitlen := 8 * msg.length
  let z := (119 - msg.length % 64) % 64
  let padded := msg ++ [0x80] ++ List.replicate z 0 ++ beBytes 8 bitlen
  (chunks 64 padded).foldl sha1Chunk
    (0x67452301, 0xEFCDAB89, 0x98BADCFE, 0x10325476, 0xC3D2E1F0)

/-- The SHA-1 digest of a byte string read as the integer
`int(hashlib.sha1(...).hexdigest(), 16)` (hex digest parsed big-endian). -/
def sha1Nat (msg : List Nat) : Nat :=
  let (h0, h1, h2, h3, h4) := sha1Bytes msg
  (((h0 * 2 ^ 32 + h1) * 2 ^ 32 + h2) * 2 ^ 32 + h3) * 2 ^ 32 + h4

/-! ## Consistent-hash ring (`src/consistent_hashing/consistent_hasher.py`) -/

/-- `ConsistentHasher._hash`:
`int(hashlib.sha1(key.encode('utf-8')).hexdigest(), 16) % (2**32)`. -/
def _hash (key : String) : Nat := sha1Nat (utf8Encode key) % 2 ^ 32

/-- State of `ConsistentHasher`: virtual-replica count, the ordered ring of
hash points, the hash-point → node-name dictionary (insertion-ordered pairs,
Python `dict` semantics), and the active-node dictionary keys. -/
structure ConsistentHasher where
  replicas : Nat
  ring : List Nat
  node_map : List (Nat × String)
  nodes : List String
deriving DecidableEq, Repr

/-- `ConsistentHasher.__init__`. -/
def ConsistentHasher.init (replicas : Nat) : ConsistentHasher :=
  { replicas := replicas, ring := [], node_map := [], nodes := [] }

/-- `bisect.bisect_left(ring, x)` on a sorted list: the index of the first
element that is `≥ x` (equal to the number of elements `< x`). -/
def bisect_left : List Nat → Nat → Nat
  | [], _ => 0
  | y :: ys, x => if y < x then bisect_left ys x + 1 else 0

/-- `ring.insert(bisect_left(ring, x), x)`: insertion at the bisect_left
position, keeping a sorted list sorted. -/
def insortLeft : List Nat → Nat → List Nat
  | [], x => [x]
  | y :: ys, x => if y < x then y :: insortLeft ys x else x :: y :: ys

/-- Python `dict` assignment `m[k] = v` on an insertion-ordered pair list:
update in place when the key exists, append otherwise. -/
def dictSet (m : List (Nat × String)) (k : Nat) (v : String) : List (Nat × String) :=
  if m.any (fun p => p.1 == k) then
    m.map (fun p => if p.1 == k then (k, v) else p)
  else m ++ [(k, v)]

/-- The hash point of the virtual key `f"{node_name}-{i}"`. -/
def keyHash (node_name : String) (i : Nat) : Nat :=
  _hash (node_name ++ "-" ++ toString i)

/-- One iteration of the `add_node` loop: hash the virtual key
`f"{node_name}-{i}"`, insert the point into the ring at its `bisect_left`
position, and record it in `node_map`. -/
def addPoint (node_name : String) (st : ConsistentHasher) (i : Nat) :
    ConsistentHasher :=
  let hash_point := keyHash node_name i
  { st with
      ring := insortLeft st.ring hash_point
      node_map := dictSet st.node_map hash_point node_name }

/-- `ConsistentHasher.add_node`: no-op (with a warning) when the node exists;
otherwise record the node and insert `replicas` virtual points, hashing the
keys `f"{node_name}-{i}"` in order `i = 0, …, replicas-1`. -/
def ConsistentHasher.add_node (s : ConsistentHasher) (node_name : String) :
    ConsistentHasher :=
  if node_name ∈ s.nodes then s
  else
    (List.range s.replicas).foldl (addPoint node_name)
      { s with nodes := s.nodes ++ [node_name] }

/-- One iteration of the `remove_node` loop: `self.ring.remove(hash_point)`
removes the first ring occurrence (on every reachable state the point is
present, so Python's `ValueError` case never fires), and
`del self.node_map[hash_point]` drops the map entry. -/
def removePoint (st : ConsistentHasher) (hash_point : Nat) : ConsistentHasher :=
  { st with
      ring := st.ring.erase hash_point
      node_map := st.node_map.filter (fun p => p.1 != hash_point) }

/-- `ConsistentHasher.remove_node`: no-op (with a warning) when the node is
absent; otherwise drop the node and, for every point of `node_map` currently
mapped to it, remove the ring occurrence and the map entry. -/
def ConsistentHasher.remove_node (s : ConsistentHasher) (node_name : String) :
    ConsistentHasher :=
  if node_name ∉ s.nodes then s
  else
    let points_to_remove :=
      (s.node_map.filter (fun p => p.2 == node_name)).map (fun p => p.1)
    points_to_remove.foldl removePoint { s with nodes := s.nodes.erase node_name }

/-- Runtime errors `get_node` can raise. -/
inductive PyError where
  | keyError
  | indexError
deriving DecidableEq, Repr

/-- The index wrap-around of `get_node`: `if idx == len(ring): idx = 0`. -/
def wrapIdx (idx len : Nat) : Nat := if idx = len then 0 else idx

/-- `ConsistentHasher.get_node`: `None` on an empty ring; otherwise the node
mapped to the first ring point `≥ _hash key`, wrapping to position 0.
`ring[idx]` out of range would be an `IndexError`; a ring point absent from
`node_map` makes `node_map[...]` raise `KeyError`. -/
def ConsistentHasher.get_node (s : ConsistentHasher) (key : String) :
    Except PyError (Option String) :=
  if s.ring.isEmpty then .ok none
  else
    match s.ring.get? (wrapIdx (bisect_left s.ring (_hash key)) s.ring.length) with
    | none => .error .indexError
    | some assigned_hash_point =>
      match s.node_map.lookup assigned_hash_point with
      | some assigned_node => .ok (some assigned_node)
      | none => .error .keyError

/-- A public mutation of the ring. -/
inductive RingOp where
  | add (name : String)
  | remove (name : String)

/-- Apply one mutation. -/
def ConsistentHasher.applyOp (s : ConsistentHasher) : RingOp → ConsistentHasher
  | .add n => s.add_node n
  | .remove n => s.remove_node n

/-- The ring state after a sequence of `add_node` / `remove_node` calls on a
fresh hasher. -/
def runOps (replicas : Nat) (ops : List RingOp) : ConsistentHasher :=
  ops.foldl ConsistentHasher.applyOp (ConsistentHasher.init replicas)

/-- The virtual keys of a node, as the spec states them:
`"{node_id}-{i}"` for decimal `i` from `0` to `REPLICAS-1`. -/
def virtualKeys (node_name : String) (replicas : Nat) : List String :=
  (List.range replicas).map (fun i => node_name ++ "-" ++ toString i)

/-- The node names an operation sequence ever adds. -/
def addNames (ops : List RingOp) : List String :=
  ops.filterMap (fun op => match op with | .add n => some n | .remove _ => none)

/-- No two distinct virtual keys of the given nodes collide under `_hash`. -/
def KeysInj (replicas : Nat) (names : List String) : Prop :=
  ∀ n1 ∈ names, ∀ n2 ∈ names, ∀ i1 < replicas, ∀ i2 < replicas,
    keyHash n1 i1 = keyHash n2 i2 → n1 = n2 ∧ i1 = i2

/-- The `node_map` entries contributed by one node: its `replicas` hash
points, each mapped to the node's name. -/
def nodeEntries (replicas : Nat) (n : String) : List (Nat × String) :=
  (List.range replicas).map (fun i => (keyHash n i, n))

/-- The reachable-state invariant of the ring under collision-free hashing:
the replica count is the configured one, `node_map` consists of exactly the
entry groups of the current nodes in insertion order, the ring is a
permutation of the map's key sequence and is sorted, the node list has no
duplicates, and every node is drawn from the name universe `N`. -/
def Inv (replicas : Nat) (N : List String) (s : ConsistentHasher) : Prop :=
  s.replicas = replicas
  ∧ s.node_map = (s.nodes.map (nodeEntries replicas)).flatten
  ∧ s.ring.Perm (s.node_map.map Prod.fst)
  ∧ s.ring.Pairwise (· ≤ ·)
  ∧ s.nodes.Nodup
  ∧ ∀ n ∈ s.nodes, n ∈ N

/-! ## Worker service (`src/worker_node/worker_service.py`) -/

/-- `WorkerService.search_knn`: parse the query, run the tree search, and
serialize the results; any raised exception is caught, logged, and turned
into an empty list. The M-Tree search itself (in `src/m_tree/m_tree.py`) is
passed as a function that may raise. -/
def WorkerService.search_knn
    (m_tree_knn : Vector → Nat → Except String (List SearchResult))
    (query_vector_data : VDict) (k : Nat) : List SRDict :=
  match (Vector.from_dict query_vector_data).bind (fun q => m_tree_knn q k) with
  | .ok results => results.map SearchResult.to_dict
  | .error _ => []

/-- `WorkerService.search_range`: same try/except shape as `search_knn`. -/
def WorkerService.search_range
    (m_tree_range : Vector → ℚ → Except String (List SearchResult))
    (query_vector_data : VDict) (radius : ℚ) : List SRDict :=
  match (Vector.from_dict query_vector_data).bind (fun q => m_tree_range q radius) with
  | .ok results => results.map SearchResult.to_dict
  | .error _ => []

/-! ## Coordinator (`src/orchestrator/orchestrator_service.py`, `app.py`) -/

/-- The comparison used by `all_results.sort(key=lambda x: x.distance)`.
Python's sort and `List.mergeSort` are both stable, and a stable sort is
uniquely determined by its comparison, so the two functions agree. -/
def leDist (a b : SearchResult) : Bool := a.distance ≤ b.distance

/-- The fan-out loop of `OrchestratorService.search_knn`: query every
registered worker `(node_id, node_url)`; a transport failure
(`RequestException`, modelled as `Except.error ()`) is logged and skipped;
a successful response has its result dictionaries parsed with
`SearchResult.from_dict` (whose exceptions propagate) and appended. -/
def OrchestratorService.gather_knn
    (workers : List (String × String))
    (net : String → Except Unit (List SRDict)) :
    Except String (List SearchResult) :=
  workers.foldlM
    (fun all_results w =>
      match net w.2 with
      | .error _ => pure all_results
      | .ok dicts => do
          let rs ← dicts.mapM SearchResult.from_dict
          pure (all_results ++ rs))
    []

/-- `OrchestratorService.search_knn`: fan out, then
`all_results.sort(key=lambda x: x.distance)`, take the first `k`, serialize. -/
def OrchestratorService.search_knn
    (workers : List (String × String))
    (net : String → Except Unit (List SRDict)) (k : Nat) :
    Except String (List SRDict) := do
  let all_results ← OrchestratorService.gather_knn workers net
  pure (((all_results.mergeSort leDist).take k).map SearchResult.to_dict)

/-- Request body of the coordinator `/search/knn` endpoint. -/
structure KnnRequestBody where
  query_vector : Option VDict
  k : Option Nat

/-- `src/orchestrator/app.py::search_knn` endpoint, returning
`(HTTP status, error message or result list)`: 400 on a missing body, missing
keys, or an invalid query vector; 500 when the service raises; otherwise 200
with the aggregated results. There is no no-workers check. -/
def orchestrator_app.search_knn
    (workers : List (String × String))
    (net : String → Except Unit (List SRDict))
    (body : Option KnnRequestBody) : Nat × Except String (List SRDict) :=
  match body with
  | none => (400, .error "Missing query_vector or k in request body")
  | some b =>
    match b.query_vector, b.k with
    | some qd, some k =>
      match Vector.from_dict qd with
      | .error e => (400, .error e)
      | .ok _ =>
        match OrchestratorService.search_knn workers net k with
        | .ok results => (200, .ok results)
        | .error e => (500, .error e)
    | _, _ => (400, .error "Missing query_vector or k in request body")

end VecSearch

/-!
## The metric tree, modelled from the spec

Modelled from the spec: the class `MTree` (file `src/m_tree/m_tree.py`) is
absent from `src/` — only its node helpers (`src/m_tree/node.py`), callers
and tests are present — so the tree, its insertion/split algorithm and its
branch-and-bound k-NN search are modelled from spec §3 ("Metric tree"),
§4.1 ("Metric tree": configuration, insertion algorithm, split, k-NN
search) and §9 (design notes: tagged leaf/internal entries, covering radius
zero for leaf entries, metric passed as a function).

Vectors are an abstract type `α` and the metric is a parameter
`d : α → α → ℚ`; per spec §2 (component C1) and §9 ("Metric abstraction"),
the metric is an external capability assumed non-negative, symmetric and
triangle-inequality-satisfying, which the theorems take as hypotheses.
Dimension checks (`DimensionMismatch`) are outside this model: the claim
quantifies only over equal-dimension inserts and queries.

Where the spec leaves the node-internal entry ORDER unobservable, the model
keeps entries as lists but may reorder them (the selected entry is moved to
the front on descent); every property claimed is order-insensitive.  The
`mM_RAD_2` promotion enumerates all candidate pairs (the spec's exact
variant, prescribed for `MAX_CHILDREN ≤ 8`; sampling is unspecified), and
promotion ties are broken by first occurrence since the spec's
`(radius_a, radius_b, id_a, id_b)` tie-break needs vector ids, which the
abstract `α` does not carry.  Neither choice affects the claimed
properties.
-/

namespace MT

mutual
/-- A metric-tree node: a leaf holds `(data vector, distance_to_parent)`
entries; an internal node holds routing entries. -/
inductive MNode (α : Type) where
  | leaf (entries : List (α × ℚ))
  | internal (entries : EList α)
/-- The entry list of an internal node (a specialized list so that the
three types form a plain mutual inductive family). -/
inductive EList (α : Type) where
  | enil
  | econs (e : IEntry α) (tail : EList α)
/-- An internal entry: routing object, covering radius, cached
`distance_to_parent`, child node. -/
inductive IEntry (α : Type) where
  | mk (rout : α) (rad : ℚ) (dtp : ℚ) (child : MNode α)
end

/-- Routing object of an entry. -/
def IEntry.rout {α : Type} : IEntry α → α
  | .mk r _ _ _ => r

/-- Covering radius of an entry. -/
def IEntry.rad {α : Type} : IEntry α → ℚ
  | .mk _ r _ _ => r

/-- Cached distance to the parent routing object. -/
def IEntry.dtp {α : Type} : IEntry α → ℚ
  | .mk _ _ t _ => t

/-- Child node of an entry. -/
def IEntry.child {α : Type} : IEntry α → MNode α
  | .mk _ _ _ c => c

/-- Entry list as an ordinary list. -/
def EList.toList {α : Type} : EList α → List (IEntry α)
  | .enil => []
  | .econs e t => e :: t.toList

/-- Ordinary list as an entry list. -/
def EList.ofList {α : Type} : List (IEntry α) → EList α
  | [] => .enil
  | e :: t => .econs e (EList.ofList t)

mutual
/-- Data vectors stored in (reachable through) a node. -/
def MNode.stored {α : Type} : MNode α → List α
  | .leaf es => es.map Prod.fst
  | .internal es => es.storedE
/-- Data vectors reachable through an entry list. -/
def EList.storedE {α : Type} : EList α → List α
  | .enil => []
  | .econs e t => e.storedI ++ t.storedE
/-- Data vectors reachable through one entry. -/
def IEntry.storedI {α : Type} : IEntry α → List α
  | .mk _ _ _ c => c.stored
end

mutual
/-- Number of nodes of a subtree (the k-NN loop's termination measure). -/
def MNode.nodeCount {α : Type} : MNode α → Nat
  | .leaf _ => 1
  | .internal es => 1 + es.countE
/-- Total node count of the children of an entry list. -/
def EList.countE {α : Type} : EList α → Nat
  | .enil => 0
  | .econs e t => e.countI + t.countE
/-- Node count of an entry's subtree. -/
def IEntry.countI {α : Type} : IEntry α → Nat
  | .mk _ _ _ c => c.nodeCount
end

mutual
/-- Spec §3 invariants 2 and 3 for a node whose enclosing parent entry has
routing object `pp` (`none` at the root): every leaf entry caches its exact
distance to `pp`, and every internal entry caches its exact distance to
`pp`, covers all vectors reachable through it within its covering radius,
and has a well-formed child. -/
def MNode.wf {α : Type} (d : α → α → ℚ) : MNode α → Option α → Prop
  | .leaf es, pp => ∀ p ∈ es, ∀ x, pp = some x → p.2 = d p.1 x
  | .internal es, pp => es.wfE d pp
/-- Well-formedness of every entry of an entry list. -/
def EList.wfE {α : Type} (d : α → α → ℚ) : EList α → Option α → Prop
  | .enil, _ => True
  | .econs e t, pp => e.wfI d pp ∧ t.wfE d pp
/-- Well-formedness of one internal entry. -/
def IEntry.wfI {α : Type} (d : α → α → ℚ) : IEntry α → Option α → Prop
  | .mk rout rad dtp c, pp =>
    (∀ x, pp = some x → dtp = d rout x)
    ∧ (∀ v ∈ c.stored, d rout v ≤ rad)
    ∧ c.wf d (some rout)
end

/-! ### k-NN search state (spec §4.1, "k-NN search (branch-and-bound)") -/

/-- `d_k`: the distance of the farthest result currently held (the last of
the ascending result list), or `none` (standing for `∞`) while fewer than
`k` results are held. -/
def dK {α : Type} (k : Nat) (res : List (ℚ × α)) : Option ℚ :=
  if res.length < k then none else res.getLast?.map Prod.fst

/-- `b > d_k` (never true against the infinite `d_k`). -/
def gtD (b : ℚ) : Option ℚ → Bool
  | none => false
  | some x => b > x

/-- `dv ≤ d_k` (always true against the infinite `d_k`). -/
def leD (dv : ℚ) : Option ℚ → Bool
  | none => true
  | some x => dv ≤ x

/-- `d_k + r` (infinite when `d_k` is). -/
def addD (o : Option ℚ) (r : ℚ) : Option ℚ :=
  o.map (fun x => x + r)

/-- Insert a result into the distance-ascending result list (the max-heap
keyed by distance, modelled as a sorted list whose last element is the
root/maximum). -/
def insRes {α : Type} : List (ℚ × α) → (ℚ × α) → List (ℚ × α)
  | [], r => [r]
  | s :: t, r => if r.1 < s.1 then r :: s :: t else s :: insRes t r

/-- Spec k-NN step 4: insert into `results`, evicting the current maximum
when the size exceeds `k`. -/
def insertEvict {α : Type} (k : Nat) (res : List (ℚ × α)) (r : ℚ × α) :
    List (ℚ × α) :=
  let res' := insRes res r
  if k < res'.length then res'.dropLast else res'

/-- Spec k-NN step 4, one leaf entry `(v, distance_to_parent)`: skip when
the cached lower bound `|d(q, p_parent) − distance_to_parent|` exceeds
`d_k`; else compute `d(q, v)` and insert when it is `≤ d_k`.  At the root
(`dp = none`) there is no cached bound. -/
def leafStep {α : Type} (d : α → α → ℚ) (q : α) (k : Nat) (dp : Option ℚ)
    (res : List (ℚ × α)) (ent : α × ℚ) : List (ℚ × α) :=
  match dp with
  | some dpv =>
    if gtD |dpv - ent.2| (dK k res) then res
    else
      let dv := d q ent.1
      if leD dv (dK k res) then insertEvict k res (dv, ent.1) else res
  | none =>
    let dv := d q ent.1
    if leD dv (dK k res) then insertEvict k res (dv, ent.1) else res

/-- Insert into the bound-ascending frontier (the min-heap of
`(lower_bound, parent distance, node)` triples, modelled as a sorted list
whose head is the minimum). -/
def insFr {α : Type} : List (ℚ × Option ℚ × MNode α) → (ℚ × Option ℚ × MNode α) →
    List (ℚ × Option ℚ × MNode α)
  | [], x => [x]
  | f :: t, x => if x.1 < f.1 then x :: f :: t else f :: insFr t x

/-- Spec k-NN step 3, one internal entry: skip when the cached lower bound
`|d(q, p_parent) − distance_to_parent|` exceeds `d_k + r`; else compute
`d(q, p_E)` exactly, prune when `d(q, p_E) − r > d_k`, else push the child
with lower bound `max 0 (d(q, p_E) − r)` and its parent distance. -/
def internalStep {α : Type} (d : α → α → ℚ) (q : α) (k : Nat) (dp : Option ℚ)
    (res : List (ℚ × α)) (fr : List (ℚ × Option ℚ × MNode α)) (ent : IEntry α) :
    List (ℚ × Option ℚ × MNode α) :=
  let push := fun (fr : List (ℚ × Option ℚ × MNode α)) =>
    let dq := d q ent.rout
    if gtD (dq - ent.rad) (dK k res) then fr
    else insFr fr (max 0 (dq - ent.rad), some dq, ent.child)
  match dp with
  | some dpv =>
    if gtD |dpv - ent.dtp| (addD (dK k res) ent.rad) then fr
    else push fr
  | none => push fr

/-- The branch-and-bound loop (spec k-NN steps 2-5).  `fuel` exceeds the
total node count on the frontier, so the `0` case is never reached from
`search_knn`; the loop stops early when the minimum frontier bound exceeds
`d_k`, otherwise it expands the minimum element. -/
def knnLoop {α : Type} (d : α → α → ℚ) (q : α) (k : Nat) :
    Nat → List (ℚ × Option ℚ × MNode α) → List (ℚ × α) → List (ℚ × α)
  | 0, _, res => res
  | _ + 1, [], res => res
  | fuel + 1, (b, dp, n) :: rest, res =>
    if gtD b (dK k res) then res
    else
      match n with
      | .leaf es => knnLoop d q k fuel rest (es.foldl (leafStep d q k dp) res)
      | .internal es =>
        knnLoop d q k fuel (es.toList.foldl (internalStep d q k dp res) rest) res

/-- Spec k-NN steps 1 and 5: push `(0, root)` and run the loop; results come
out sorted ascending.  An empty tree answers the empty list. -/
def search_knn {α : Type} (d : α → α → ℚ) (root : Option (MNode α)) (q : α)
    (k : Nat) : List (ℚ × α) :=
  match root with
  | none => []
  | some r => knnLoop d q k (1 + r.nodeCount) [(0, none, r)] []

/-! ### Insertion (spec §4.1, "Insertion algorithm" and "Split") -/

/-- Result of inserting below a node: the node was rebuilt in place, or it
split into two promoted sides `(p, tight radius, node)`. -/
inductive InsResult (α : Type) where
  | single (n : MNode α)
  | split (p1 : α) (r1 : ℚ) (n1 : MNode α) (p2 : α) (r2 : ℚ) (n2 : MNode α)

/-- Extract a minimal element under the Boolean comparison `le` (first
occurrence wins ties); returns the chosen element and the others. -/
def pickMinBy {β : Type} (le : β → β → Bool) : List β → Option (β × List β)
  | [] => none
  | e :: es =>
    match pickMinBy le es with
    | none => some (e, [])
    | some (c, rest) => if le e c then some (e, es) else some (c, e :: rest)

/-- All unordered candidate pairs (spec split step 1, exact `mM_RAD_2`
enumeration). -/
def allPairs {β : Type} : List β → List (β × β)
  | [] => []
  | x :: xs => xs.map (fun y => (x, y)) ++ allPairs xs

/-- Spec split step 2: assign each entry (with routing object given by
`routOf`) to the closer promoted object; ties go to the side with fewer
entries, then to side `a`. -/
def partitionBy {α β : Type} (d : α → α → ℚ) (routOf : β → α) (a b : α)
    (es : List β) : List β × List β :=
  es.foldl
    (fun acc e =>
      let da := d (routOf e) a
      let db := d (routOf e) b
      if da < db then (acc.1 ++ [e], acc.2)
      else if db < da then (acc.1, acc.2 ++ [e])
      else if acc.1.length ≤ acc.2.length then (acc.1 ++ [e], acc.2)
      else (acc.1, acc.2 ++ [e]))
    ([], [])

/-- Spec split step 2, `MIN_CHILDREN` enforcement: move entries to the
undersized side, choosing the one whose reassignment least increases the
receiving side's radius (the entry closest to the receiving promoted
object). -/
def balance {α β : Type} (d : α → α → ℚ) (routOf : β → α) (a b : α)
    (mc : Nat) : Nat → List β × List β → List β × List β
  | 0, s => s
  | fuel + 1, (as, bs) =>
    if as.length < mc then
      match pickMinBy (fun x y => d (routOf x) a ≤ d (routOf y) a) bs with
      | some (x, bs') => balance d routOf a b mc fuel (as ++ [x], bs')
      | none => (as, bs)
    else if bs.length < mc then
      match pickMinBy (fun x y => d (routOf x) b ≤ d (routOf y) b) as with
      | some (x, as') => balance d routOf a b mc fuel (as', bs ++ [x])
      | none => (as, bs)
    else (as, bs)

/-- Tight covering radius of a leaf partition around a promoted object. -/
def leafRadius {α : Type} (d : α → α → ℚ) (p : α) (es : List (α × ℚ)) : ℚ :=
  (es.map (fun e => d e.1 p)).foldl max 0

/-- Tight covering radius bound of an internal partition around a promoted
object (`d(p, rout E) + rad E` covers everything under `E`). -/
def intRadius {α : Type} (d : α → α → ℚ) (p : α) (es : List (IEntry α)) : ℚ :=
  (es.map (fun e => d e.rout p + e.rad)).foldl max 0

/-- Spec "Split" for a leaf, given the promoted pair: partition, enforce
`MIN_CHILDREN`, and build two sibling leaves with recomputed radii and
`distance_to_parent` caches. -/
def splitLeafWith {α : Type} (d : α → α → ℚ) (mc : Nat) (ab : α × α)
    (es : List (α × ℚ)) : InsResult α :=
  let part0 := partitionBy d Prod.fst ab.1 ab.2 es
  let part := balance d Prod.fst ab.1 ab.2 mc es.length part0
  .split ab.1 (leafRadius d ab.1 part.1)
      (.leaf (part.1.map (fun e => (e.1, d e.1 ab.1))))
    ab.2 (leafRadius d ab.2 part.2)
      (.leaf (part.2.map (fun e => (e.1, d e.1 ab.2))))

/-- Spec "Split" for a leaf: promote the pair minimizing the sum of the two
resulting covering radii (exact `mM_RAD_2` enumeration), then split. -/
def splitLeaf {α : Type} (d : α → α → ℚ) (mc : Nat) (es : List (α × ℚ)) :
    InsResult α :=
  match es with
  | [] => .single (.leaf [])
  | e0 :: _ =>
    let score := fun (ab : α × α) =>
      let part := partitionBy d Prod.fst ab.1 ab.2 es
      leafRadius d ab.1 part.1 + leafRadius d ab.2 part.2
    let ab :=
      match pickMinBy (fun x y => score x ≤ score y) (allPairs (es.map Prod.fst)) with
      | some (ab, _) => ab
      | none => (e0.1, e0.1)
    splitLeafWith d mc ab es

/-- Spec "Split" for an internal node, given the promoted pair: as for
leaves, with the `d(p, rout E) + rad E` radius bound and refreshed child
`distance_to_parent` caches. -/
def splitInternalWith {α : Type} (d : α → α → ℚ) (mc : Nat) (ab : α × α)
    (es : List (IEntry α)) : InsResult α :=
  let part0 := partitionBy d IEntry.rout ab.1 ab.2 es
  let part := balance d IEntry.rout ab.1 ab.2 mc es.length part0
  .split ab.1 (intRadius d ab.1 part.1)
      (.internal (EList.ofList
        (part.1.map (fun e => IEntry.mk e.rout e.rad (d e.rout ab.1) e.child))))
    ab.2 (intRadius d ab.2 part.2)
      (.internal (EList.ofList
        (part.2.map (fun e => IEntry.mk e.rout e.rad (d e.rout ab.2) e.child))))

/-- Spec "Split" for an internal node: promote the pair minimizing the sum
of the two resulting covering radii, then split. -/
def splitInternal {α : Type} (d : α → α → ℚ) (mc : Nat)
    (es : List (IEntry α)) : InsResult α :=
  match es with
  | [] => .single (.internal .enil)
  | e0 :: _ =>
    let score := fun (ab : α × α) =>
      let part := partitionBy d IEntry.rout ab.1 ab.2 es
      intRadius d ab.1 part.1 + intRadius d ab.2 part.2
    let ab :=
      match pickMinBy (fun x y => score x ≤ score y) (allPairs (es.map IEntry.rout)) with
      | some (ab, _) => ab
      | none => (e0.rout, e0.rout)
    splitInternalWith d mc ab es

/-- Spec insertion step 1, leaf selection: among entries whose covering
radius already contains `v`, take the one closest to `v`; otherwise take
the one with least radius enlargement, ties by smaller distance. -/
def selCmp {α : Type} (d : α → α → ℚ) (v : α) (e1 e2 : IEntry α) : Bool :=
  let s := fun (e : IEntry α) =>
    let dq := d v e.rout
    if dq ≤ e.rad then ((0 : ℚ), dq) else (1, dq - e.rad)
  let s1 := s e1
  let s2 := s e2
  if s1.1 ≠ s2.1 then s1.1 < s2.1
  else if s1.2 ≠ s2.2 then s1.2 < s2.2
  else d v e1.rout ≤ d v e2.rout

/-- Index of the minimal element under `le` (0 on the empty list). -/
def idxOfMin {β : Type} (le : β → β → Bool) : List β → Nat
  | [] => 0
  | [_] => 0
  | x :: xs =>
    let j := idxOfMin le xs
    match xs.get? j with
    | none => 0
    | some y => if le x y then 0 else j + 1

mutual
/-- Insert `v` below a node whose enclosing parent routing object is `pp`
(spec insertion steps 1-4).  A leaf appends the new entry (covering radius
of a single point is 0, `distance_to_parent` exact) and splits on
overflow; an internal node descends into the selected entry, widening its
covering radius to `max(old, d(v, rout))`, replaces it (by one updated or
two promoted entries with exact `distance_to_parent`), and splits on
overflow.  An internal node with no entries (unreachable from the spec's
splits, which produce non-empty sides) degrades to a fresh leaf so that
the function is total without losing the vector. -/
def insertNode {α : Type} (d : α → α → ℚ) (maxc mc : Nat) :
    MNode α → α → Option α → InsResult α
  | .leaf es, v, pp =>
    let dtpv := match pp with | some p => d v p | none => 0
    let es' := es ++ [(v, dtpv)]
    if maxc < es'.length then splitLeaf d mc es' else .single (.leaf es')
  | .internal .enil, v, pp =>
    let dtpv := match pp with | some p => d v p | none => 0
    .single (.leaf [(v, dtpv)])
  | .internal (.econs e t), v, pp =>
    let j := idxOfMin (selCmp d v) (EList.econs e t).toList
    let es' := insertIdx d maxc mc (.econs e t) j v pp
    if maxc < es'.length then splitInternal d mc es'
    else .single (.internal (EList.ofList es'))
/-- Walk to the selected entry (by index), recurse into its child, and
produce this node's new entry list: the selected entry is replaced in
place by its updated form, or by the two promoted entries of a child
split. -/
def insertIdx {α : Type} (d : α → α → ℚ) (maxc mc : Nat) :
    EList α → Nat → α → Option α → List (IEntry α)
  | .enil, _, _, _ => []
  | .econs (.mk rout rad dtp c) t, 0, v, pp =>
    let dq := d v rout
    match insertNode d maxc mc c v (some rout) with
    | .single c' => IEntry.mk rout (max rad dq) dtp c' :: t.toList
    | .split p1 r1 n1 p2 r2 n2 =>
      let dtp1 := match pp with | some p => d p1 p | none => 0
      let dtp2 := match pp with | some p => d p2 p | none => 0
      IEntry.mk p1 r1 dtp1 n1 :: IEntry.mk p2 r2 dtp2 n2 :: t.toList
  | .econs e t, j + 1, v, pp => e :: insertIdx d maxc mc t j v pp
end

/-- Spec insertion at the tree level: the first insert creates a single
leaf root; a root split allocates a new internal root with the two
promoted entries (root-level `distance_to_parent` is undefined and stored
as 0). -/
def insert {α : Type} (d : α → α → ℚ) (maxc mc : Nat) (root : Option (MNode α))
    (v : α) : Option (MNode α) :=
  match root with
  | none => some (.leaf [(v, 0)])
  | some r =>
    match insertNode d maxc mc r v none with
    | .single n => some n
    | .split p1 r1 n1 p2 r2 n2 =>
      some (.internal (EList.ofList
        [IEntry.mk p1 r1 0 n1, IEntry.mk p2 r2 0 n2]))

/-- The tree built by a sequence of inserts into a fresh tree. -/
def buildTree {α : Type} (d : α → α → ℚ) (maxc mc : Nat) (vs : List α) :
    Option (MNode α) :=
  vs.foldl (insert d maxc mc) none

/-- Stored vectors of a possibly-empty tree. -/
def storedT {α : Type} : Option (MNode α) → List α
  | none => []
  | some n => n.stored

/-! ### Specification predicates for the correctness development -/

/-- `o₁ ≤ o₂` on possibly-infinite values (`none` stands for `∞`). -/
def leO (o1 o2 : Option ℚ) : Prop :=
  ∀ c2, o2 = some c2 → ∃ c1, o1 = some c1 ∧ c1 ≤ c2

/-- A discarded distance is justified: the result set is full and its
current farthest distance does not exceed the discarded one. -/
def discOK {α : Type} (k : Nat) (res : List (ℚ × α)) (x : ℚ) : Prop :=
  ∃ c, dK k res = some c ∧ c ≤ x

/-- Well-formedness of one frontier element `(bound, parent distance,
node)`: the node is well-formed under some enclosing routing object whose
query distance is the cached one, and the bound is a true lower bound on
the query distance of everything stored below. -/
def frOK {α : Type} (d : α → α → ℚ) (q : α) (x : ℚ × Option ℚ × MNode α) : Prop :=
  (∃ pp : Option α, x.2.2.wf d pp ∧
    match pp, x.2.1 with
    | some p, some dpv => dpv = d q p
    | none, none => True
    | _, _ => False)
  ∧ ∀ v ∈ x.2.2.stored, x.1 ≤ d q v

/-- All vectors stored below the frontier. -/
def frStored {α : Type} (fr : List (ℚ × Option ℚ × MNode α)) : List α :=
  fr.flatMap (fun x => x.2.2.stored)

/-- Total node count below the frontier (the fuel bound). -/
def frCount {α : Type} (fr : List (ℚ × Option ℚ × MNode α)) : Nat :=
  (fr.map (fun x => x.2.2.nodeCount)).sum

/-- Well-formedness of the result list: sorted ascending by distance, at
most `k` entries, every entry carrying its true query distance. -/
def resOK {α : Type} (d : α → α → ℚ) (q : α) (k : Nat) (res : List (ℚ × α)) : Prop :=
  res.Pairwise (fun a b => a.1 ≤ b.1) ∧ res.length ≤ k ∧ ∀ x ∈ res, x.1 = d q x.2

/-- Contract of `insertNode` below a parent routing object `pp` on a node
that stored `base`: a rebuilt node stores `v :: base` (as a multiset) and
is well-formed under the same `pp`; a split yields two well-formed sides
covered by their promoted objects within the returned radii, together
storing `v :: base`. -/
def InsOK {α : Type} (d : α → α → ℚ) (v : α) (pp : Option α) (base : List α) :
    InsResult α → Prop
  | .single n' => n'.stored.Perm (v :: base) ∧ n'.wf d pp
  | .split p1 r1 n1 p2 r2 n2 =>
    (n1.stored ++ n2.stored).Perm (v :: base)
    ∧ n1.wf d (some p1) ∧ (∀ u ∈ n1.stored, d p1 u ≤ r1)
    ∧ n2.wf d (some p2) ∧ (∀ u ∈ n2.stored, d p2 u ≤ r2)

/-- Well-formedness of a possibly-empty tree (the root has no parent). -/
def wfT {α : Type} (d : α → α → ℚ) : Option (MNode α) → Prop
  | none => True
  | some n => n.wf d none

end MT

namespace VecSearch

/-! ## Concrete fixtures used by counterexamples and witnesses -/

/-- A well-formed one-dimensional query-vector dictionary. -/
def q0dict : VDict := { id := some "q", vector := some [1], metadata := [] }

/-- A result with id `"a"` at distance 1. -/
def ra : SearchResult := ⟨⟨"a", [0], []⟩, 1⟩

/-- A result with id `"b"` at distance 1. -/
def rb : SearchResult := ⟨⟨"b", [0], []⟩, 1⟩

end VecSearch

namespace MT

/-! ### Entry-list and accessor lemmas -/

/-- Converting a list to an entry list and back is the identity. -/
theorem toList_ofList {α : Type} : ∀ l : List (IEntry α), (EList.ofList l).toList = l
  | [] => rfl
  | e :: t => by simp [EList.ofList, EList.toList, toList_ofList t]

/-- `storedE` through `toList`. -/
theorem storedE_toList {α : Type} :
    ∀ es : EList α, es.storedE = es.toList.flatMap IEntry.storedI
  | .enil => rfl
  | .econs e t => by
    simp [EList.storedE, EList.toList, storedE_toList t]

/-- `countE` through `toList`. -/
theorem countE_toList {α : Type} :
    ∀ es : EList α, es.countE = (es.toList.map IEntry.countI).sum
  | .enil => rfl
  | .econs e t => by
    simp [EList.countE, EList.toList, countE_toList t]

/-- `wfE` through `toList`. -/
theorem wfE_toList {α : Type} (d : α → α → ℚ) :
    ∀ (es : EList α) (pp : Option α),
      es.wfE d pp ↔ ∀ E ∈ es.toList, E.wfI d pp
  | .enil, pp => by simp [EList.wfE, EList.toList]
  | .econs e t, pp => by
    simp [EList.wfE, EList.toList, wfE_toList d t pp]

/-- `storedI` through the accessors. -/
theorem storedI_eq {α : Type} (E : IEntry α) : E.storedI = E.child.stored := by
  cases E
  rfl

/-- `countI` through the accessors. -/
theorem countI_eq {α : Type} (E : IEntry α) : E.countI = E.child.nodeCount := by
  cases E
  rfl

/-- `wfI` through the accessors. -/
theorem wfI_iff {α : Type} (d : α → α → ℚ) (E : IEntry α) (pp : Option α) :
    E.wfI d pp ↔
      (∀ x, pp = some x → E.dtp = d E.rout x)
      ∧ (∀ v ∈ E.child.stored, d E.rout v ≤ E.rad)
      ∧ E.child.wf d (some E.rout) := by
  cases E
  rfl

/-! ### Result-list lemmas -/

/-- `insRes` adds the new result, as a multiset. -/
theorem insRes_perm {α : Type} :
    ∀ (res : List (ℚ × α)) (r : ℚ × α), (insRes res r).Perm (r :: res)
  | [], _ => List.Perm.refl _
  | s :: t, r => by
    unfold insRes
    by_cases h : r.1 < s.1
    · simp only [if_pos h]
      exact List.Perm.refl _
    · simp only [if_neg h]
      exact ((insRes_perm t r).cons s).trans (List.Perm.swap r s t)

/-- `insRes` keeps the result list sorted ascending by distance. -/
theorem insRes_sorted {α : Type} :
    ∀ (res : List (ℚ × α)) (r : ℚ × α),
      res.Pairwise (fun x y => x.1 ≤ y.1) →
      (insRes res r).Pairwise (fun x y => x.1 ≤ y.1)
  | [], r, _ => by simp [insRes]
  | s :: t, r, h => by
    rw [List.pairwise_cons] at h
    unfold insRes
    by_cases hrs : r.1 < s.1
    · simp only [if_pos hrs]
      rw [List.pairwise_cons]
      refine ⟨?_, List.pairwise_cons.mpr h⟩
      intro z hz
      rcases List.mem_cons.mp hz with hz | hz
      · exact hz ▸ le_of_lt hrs
      · exact le_trans (le_of_lt hrs) (h.1 z hz)
    · simp only [if_neg hrs]
      rw [List.pairwise_cons]
      refine ⟨?_, insRes_sorted t r h.2⟩
      intro z hz
      rcases List.mem_cons.mp ((insRes_perm t r).mem_iff.mp hz) with hz | hz
      · exact hz ▸ le_of_not_lt hrs
      · exact h.1 z hz

/-- The last element of a distance-sorted result list bounds them all. -/
theorem sorted_getLast_max {α : Type} :
    ∀ (res : List (ℚ × α)) (y : ℚ × α),
      res.Pairwise (fun x z => x.1 ≤ z.1) → res.getLast? = some y →
      ∀ x ∈ res, x.1 ≤ y.1
  | [], _, _, hy => by simp at hy
  | [s], y, _, hy => by
    simp only [List.getLast?_singleton, Option.some_inj] at hy
    subst hy
    intro x hx
    rcases List.mem_singleton.mp hx with rfl
    exact le_refl _
  | s :: s' :: t, y, hs, hy => by
    rw [List.pairwise_cons] at hs
    have hy' : (s' :: t).getLast? = some y := by
      rw [List.getLast?_cons_cons] at hy
      exact hy
    intro x hx
    rcases List.mem_cons.mp hx with rfl | hx
    · have hym : y ∈ s' :: t := List.mem_of_getLast?_eq_some hy'
      exact hs.1 y hym
    · exact sorted_getLast_max (s' :: t) y hs.2 hy' x hx

/-! ### `d_k`, discard-justification and eviction lemmas -/

/-- `leO` is reflexive. -/
theorem leO_refl (o : Option ℚ) : leO o o := fun c h => ⟨c, h, le_refl c⟩

/-- `leO` is transitive. -/
theorem leO_trans {o1 o2 o3 : Option ℚ} (h12 : leO o1 o2) (h23 : leO o2 o3) :
    leO o1 o3 := by
  intro c3 h3
  obtain ⟨c2, h2, hle2⟩ := h23 c3 h3
  obtain ⟨c1, h1, hle1⟩ := h12 c2 h2
  exact ⟨c1, h1, le_trans hle1 hle2⟩

/-- Discard justification survives a shrink of `d_k`. -/
theorem discOK_mono {α : Type} {k : Nat} {res res' : List (ℚ × α)} {x : ℚ}
    (hle : leO (dK k res') (dK k res)) (h : discOK k res x) : discOK k res' x := by
  obtain ⟨c, hc, hcx⟩ := h
  obtain ⟨c', hc', hle'⟩ := hle c hc
  exact ⟨c', hc', le_trans hle' hcx⟩

/-- A finite `d_k` means the result list is full and bounded by it. -/
theorem dK_some {α : Type} {k : Nat} {res : List (ℚ × α)} {c : ℚ}
    (hs : res.Pairwise (fun a b => a.1 ≤ b.1)) (h : dK k res = some c) :
    k ≤ res.length ∧ ∀ x ∈ res, x.1 ≤ c := by
  unfold dK at h
  by_cases hlen : res.length < k
  · rw [if_pos hlen] at h
    cases h
  · rw [if_neg hlen] at h
    obtain ⟨y, hy, hyc⟩ := Option.map_eq_some'.mp h
    exact ⟨le_of_not_lt hlen, fun x hx => hyc ▸ sorted_getLast_max res y hs hy x hx⟩

/-- A full result list (with `k ≥ 1`) has a finite `d_k`: its last
distance. -/
theorem dK_eq_some_of_full {α : Type} {k : Nat} {res : List (ℚ × α)}
    (hlen : res.length = k) (hk : 1 ≤ k) :
    ∃ y, res.getLast? = some y ∧ dK k res = some y.1 := by
  have hne : res ≠ [] := by
    intro h
    subst h
    simp at hlen
    omega
  obtain ⟨y, hy⟩ := Option.ne_none_iff_exists'.mp
    (fun h => hne (List.getLast?_eq_none_iff.mp h))
  refine ⟨y, hy, ?_⟩
  unfold dK
  rw [if_neg (by omega), hy]
  rfl

/-- Reverse triangle inequality: the cached-parent-distance lower bound is
sound. -/
theorem abs_dist_le {α : Type} (d : α → α → ℚ)
    (hsym : ∀ x y, d x y = d y x) (htri : ∀ x y z, d x z ≤ d x y + d y z)
    (q p v : α) : |d q p - d v p| ≤ d q v := by
  rw [abs_sub_le_iff]
  constructor
  · have h1 := htri q v p
    linarith
  · have h1 := htri v q p
    have h2 := hsym v q
    linarith

/-- Full specification of one `insertEvict` call on a well-formed result
list whose `d_k` admits the new result. -/
theorem insertEvict_spec {α : Type} (d : α → α → ℚ) (q : α) (k : Nat)
    (res : List (ℚ × α)) (r : ℚ × α)
    (hk : 1 ≤ k)
    (hs : res.Pairwise (fun a b => a.1 ≤ b.1))
    (hlen : res.length ≤ k)
    (hd : ∀ x ∈ res, x.1 = d q x.2)
    (hr : r.1 = d q r.2)
    (hrle : leD r.1 (dK k res) = true) :
    (insertEvict k res r).Pairwise (fun a b => a.1 ≤ b.1)
    ∧ (insertEvict k res r).length ≤ k
    ∧ (∀ x ∈ insertEvict k res r, x.1 = d q x.2)
    ∧ leO (dK k (insertEvict k res r)) (dK k res)
    ∧ ∃ Dn : List (ℚ × α), (insertEvict k res r ++ Dn).Perm (r :: res)
        ∧ ∀ y ∈ Dn, y.1 = d q y.2 ∧ discOK k (insertEvict k res r) y.1 := by
  have hperm2 := insRes_perm res r
  have hs2 := insRes_sorted res r hs
  have hlen2 : (insRes res r).length = res.length + 1 := by
    rw [hperm2.length_eq]
    rfl
  have hd2 : ∀ x ∈ insRes res r, x.1 = d q x.2 := by
    intro x hx
    rcases List.mem_cons.mp (hperm2.mem_iff.mp hx) with rfl | hx
    · exact hr
    · exact hd x hx
  unfold insertEvict
  by_cases hev : k < (insRes res r).length
  · simp only [if_pos hev]
    have hlenk : res.length = k := by omega
    have hne2 : insRes res r ≠ [] := by
      intro h
      rw [h] at hlen2
      simp at hlen2
    have hy : (insRes res r).getLast? = some ((insRes res r).getLast hne2) :=
      List.getLast?_eq_getLast _ hne2
    set y := (insRes res r).getLast hne2 with hydef
    have happ : (insRes res r).dropLast ++ [y] = insRes res r :=
      List.dropLast_append_getLast hne2
    have hsd : ((insRes res r).dropLast).Pairwise (fun a b => a.1 ≤ b.1) :=
      List.Pairwise.sublist (List.dropLast_sublist _) hs2
    have hlend : ((insRes res r).dropLast).length = k := by
      rw [List.length_dropLast, hlen2]
      omega
    have hmemd : ∀ x ∈ (insRes res r).dropLast, x ∈ insRes res r :=
      fun x hx => (List.dropLast_sublist _).mem hx
    obtain ⟨yo, hyo, hdKo⟩ := dK_eq_some_of_full hlenk hk
    have hyomem : yo ∈ res := List.mem_of_getLast?_eq_some hyo
    have hrleo : r.1 ≤ yo.1 := by
      rw [hdKo] at hrle
      simpa [leD] using hrle
    have hymax : ∀ x ∈ insRes res r, x.1 ≤ y.1 :=
      sorted_getLast_max _ y hs2 hy
    have hyle : y.1 ≤ yo.1 := by
      have hym : y ∈ insRes res r := List.mem_of_getLast?_eq_some hy
      rcases List.mem_cons.mp (hperm2.mem_iff.mp hym) with h | h
      · rw [h]
        exact hrleo
      · exact sorted_getLast_max res yo hs hyo y h
    have hyeq : y.1 = yo.1 :=
      le_antisymm hyle (hymax yo (hperm2.mem_iff.mpr (List.mem_cons_of_mem r hyomem)))
    obtain ⟨y', hy', hdK'⟩ := dK_eq_some_of_full hlend hk
    have hy'le : y'.1 ≤ y.1 :=
      hymax y' (hmemd y' (List.mem_of_getLast?_eq_some hy'))
    refine ⟨hsd, by omega, fun x hx => hd2 x (hmemd x hx), ?_, [y], ?_, ?_⟩
    · intro c2 hc2
      rw [hdKo] at hc2
      injection hc2 with hc2
      exact ⟨y'.1, hdK', by rw [← hc2, ← hyeq]; exact hy'le⟩
    · rw [happ]
      exact hperm2
    · intro z hz
      rcases List.mem_singleton.mp hz with rfl
      exact ⟨hd2 y (List.mem_of_getLast?_eq_some hy), ⟨y'.1, hdK', hy'le⟩⟩
  · simp only [if_neg hev]
    refine ⟨hs2, le_of_not_lt hev, hd2, ?_, [], by simpa using hperm2, by simp⟩
    intro c2 hc2
    have hfull := (dK_some hs hc2).1
    omega

/-- Specification of the compute-and-insert core of a leaf step. -/
theorem leafCore_spec {α : Type} (d : α → α → ℚ) (q : α) (k : Nat) (hk : 1 ≤ k)
    (res : List (ℚ × α)) (v : α)
    (hs : res.Pairwise (fun a b => a.1 ≤ b.1))
    (hlen : res.length ≤ k)
    (hd : ∀ x ∈ res, x.1 = d q x.2) :
    ∀ res', res' = (if leD (d q v) (dK k res) then insertEvict k res (d q v, v) else res) →
    res'.Pairwise (fun a b => a.1 ≤ b.1)
    ∧ res'.length ≤ k
    ∧ (∀ x ∈ res', x.1 = d q x.2)
    ∧ leO (dK k res') (dK k res)
    ∧ ∃ Dv : List α, (res'.map Prod.snd ++ Dv).Perm (v :: res.map Prod.snd)
        ∧ ∀ u ∈ Dv, discOK k res' (d q u) := by
  intro res' hres'
  by_cases hle : leD (d q v) (dK k res) = true
  · rw [if_pos hle] at hres'
    obtain ⟨h1, h2, h3, h4, Dn, hperm, hDn⟩ :=
      insertEvict_spec d q k res (d q v, v) hk hs hlen hd rfl hle
    subst hres'
    refine ⟨h1, h2, h3, h4, Dn.map Prod.snd, ?_, ?_⟩
    · have := hperm.map Prod.snd
      simpa using this
    · intro u hu
      obtain ⟨y, hy, rfl⟩ := List.mem_map.mp hu
      have := (hDn y hy).2
      rw [(hDn y hy).1] at this
      exact this
  · rw [if_neg hle] at hres'
    rw [hres']
    have hdisc : discOK k res (d q v) := by
      cases hc : dK k res with
      | none => rw [hc] at hle; simp [leD] at hle
      | some c =>
        rw [hc] at hle
        simp only [leD, decide_eq_true_eq] at hle
        exact ⟨c, hc, le_of_lt (lt_of_not_le hle)⟩
    exact ⟨hs, hlen, hd, leO_refl _, [v],
      List.perm_append_singleton v (res.map Prod.snd),
      fun u hu => by rcases List.mem_singleton.mp hu with rfl; exact hdisc⟩

/-- Specification of one leaf entry step (spec k-NN step 4): the result
list stays well-formed, `d_k` does not grow, and the entry's vector either
enters the results or is justifiably discarded (as may be one evicted
result). -/
theorem leafStep_spec {α : Type} (d : α → α → ℚ) (q : α) (k : Nat)
    (hsym : ∀ x y, d x y = d y x) (htri : ∀ x y z, d x z ≤ d x y + d y z)
    (hk : 1 ≤ k) (dp : Option ℚ) (pp : Option α)
    (hdp : match pp, dp with
           | some p, some dpv => dpv = d q p
           | none, none => True
           | _, _ => False)
    (res : List (ℚ × α)) (ent : α × ℚ)
    (hwf : ∀ x, pp = some x → ent.2 = d ent.1 x)
    (hs : res.Pairwise (fun a b => a.1 ≤ b.1))
    (hlen : res.length ≤ k)
    (hd : ∀ x ∈ res, x.1 = d q x.2) :
    (leafStep d q k dp res ent).Pairwise (fun a b => a.1 ≤ b.1)
    ∧ (leafStep d q k dp res ent).length ≤ k
    ∧ (∀ x ∈ leafStep d q k dp res ent, x.1 = d q x.2)
    ∧ leO (dK k (leafStep d q k dp res ent)) (dK k res)
    ∧ ∃ Dv : List α,
        ((leafStep d q k dp res ent).map Prod.snd ++ Dv).Perm
          (ent.1 :: res.map Prod.snd)
        ∧ ∀ u ∈ Dv, discOK k (leafStep d q k dp res ent) (d q u) := by
  cases dp with
  | none =>
    exact leafCore_spec d q k hk res ent.1 hs hlen hd _ rfl
  | some dpv =>
    cases pp with
    | none => exact absurd hdp (by simp)
    | some p =>
      have hdpv : dpv = d q p := hdp
      by_cases hskip : gtD |dpv - ent.2| (dK k res) = true
      · have hstep : leafStep d q k (some dpv) res ent = res := by
          simp only [leafStep]
          rw [if_pos hskip]
        rw [hstep]
        have hdisc : discOK k res (d q ent.1) := by
          cases hc : dK k res with
          | none => rw [hc] at hskip; simp [gtD] at hskip
          | some c =>
            rw [hc] at hskip
            simp only [gtD, decide_eq_true_eq] at hskip
            have hb : |dpv - ent.2| ≤ d q ent.1 := by
              rw [hdpv, hwf p rfl]
              exact abs_dist_le d hsym htri q p ent.1
            exact ⟨c, hc, le_trans (le_of_lt hskip) hb⟩
        exact ⟨hs, hlen, hd, leO_refl _, [ent.1],
          List.perm_append_singleton ent.1 (res.map Prod.snd),
          fun u hu => by rcases List.mem_singleton.mp hu with rfl; exact hdisc⟩
      · have hstep : leafStep d q k (some dpv) res ent
            = (if leD (d q ent.1) (dK k res) then insertEvict k res (d q ent.1, ent.1)
               else res) := by
          simp only [leafStep]
          rw [if_neg hskip]
        exact hstep ▸ leafCore_spec d q k hk res ent.1 hs hlen hd _ rfl

/-- Specification of the whole leaf fold: the result list stays
well-formed, `d_k` does not grow, and each leaf vector that is not in the
final result list is justifiably discarded. -/
theorem leafFold_spec {α : Type} (d : α → α → ℚ) (q : α) (k : Nat)
    (hsym : ∀ x y, d x y = d y x) (htri : ∀ x y z, d x z ≤ d x y + d y z)
    (hk : 1 ≤ k) (dp : Option ℚ) (pp : Option α)
    (hdp : match pp, dp with
           | some p, some dpv => dpv = d q p
           | none, none => True
           | _, _ => False) :
    ∀ (es : List (α × ℚ)) (res : List (ℚ × α)),
    (∀ ent ∈ es, ∀ x, pp = some x → ent.2 = d ent.1 x) →
    res.Pairwise (fun a b => a.1 ≤ b.1) →
    res.length ≤ k →
    (∀ x ∈ res, x.1 = d q x.2) →
    (es.foldl (leafStep d q k dp) res).Pairwise (fun a b => a.1 ≤ b.1)
    ∧ (es.foldl (leafStep d q k dp) res).length ≤ k
    ∧ (∀ x ∈ es.foldl (leafStep d q k dp) res, x.1 = d q x.2)
    ∧ leO (dK k (es.foldl (leafStep d q k dp) res)) (dK k res)
    ∧ ∃ Dv : List α,
        ((es.foldl (leafStep d q k dp) res).map Prod.snd ++ Dv).Perm
          (es.map Prod.fst ++ res.map Prod.snd)
        ∧ ∀ u ∈ Dv, discOK k (es.foldl (leafStep d q k dp) res) (d q u)
  | [], res, _, hs, hlen, hd =>
    ⟨hs, hlen, hd, leO_refl _, [], by simp, by simp⟩
  | ent :: es, res, hwf, hs, hlen, hd => by
    obtain ⟨h1, h2, h3, h4, Dv1, hperm1, hD1⟩ :=
      leafStep_spec d q k hsym htri hk dp pp hdp res ent
        (hwf ent (List.mem_cons_self ent es)) hs hlen hd
    obtain ⟨g1, g2, g3, g4, Dv2, hperm2, hD2⟩ :=
      leafFold_spec d q k hsym htri hk dp pp hdp es (leafStep d q k dp res ent)
        (fun e he => hwf e (List.mem_cons_of_mem ent he)) h1 h2 h3
    refine ⟨g1, g2, g3, leO_trans g4 h4, Dv2 ++ Dv1, ?_, ?_⟩
    · simp only [List.foldl_cons, List.map_cons]
      rw [← List.append_assoc]
      refine (hperm2.append_right Dv1).trans ?_
      rw [List.append_assoc]
      exact (List.Perm.append_left _ hperm1).trans List.perm_middle
    · intro u hu
      rcases List.mem_append.mp hu with hu | hu
      · exact hD2 u hu
      · exact discOK_mono g4 (hD1 u hu)

/-! ### Frontier lemmas -/

/-- `insFr` adds the new element, as a multiset. -/
theorem insFr_perm {α : Type} :
    ∀ (fr : List (ℚ × Option ℚ × MNode α)) (x), (insFr fr x).Perm (x :: fr)
  | [], _ => List.Perm.refl _
  | f :: t, x => by
    unfold insFr
    by_cases h : x.1 < f.1
    · simp only [if_pos h]
      exact List.Perm.refl _
    · simp only [if_neg h]
      exact ((insFr_perm t x).cons f).trans (List.Perm.swap x f t)

/-- `insFr` keeps the frontier sorted ascending by bound. -/
theorem insFr_sorted {α : Type} :
    ∀ (fr : List (ℚ × Option ℚ × MNode α)) (x),
      fr.Pairwise (fun a b => a.1 ≤ b.1) →
      (insFr fr x).Pairwise (fun a b => a.1 ≤ b.1)
  | [], x, _ => by simp [insFr]
  | f :: t, x, h => by
    rw [List.pairwise_cons] at h
    unfold insFr
    by_cases hxf : x.1 < f.1
    · simp only [if_pos hxf]
      rw [List.pairwise_cons]
      refine ⟨?_, List.pairwise_cons.mpr h⟩
      intro z hz
      rcases List.mem_cons.mp hz with hz | hz
      · exact hz ▸ le_of_lt hxf
      · exact le_trans (le_of_lt hxf) (h.1 z hz)
    · simp only [if_neg hxf]
      rw [List.pairwise_cons]
      refine ⟨?_, insFr_sorted t x h.2⟩
      intro z hz
      rcases List.mem_cons.mp ((insFr_perm t x).mem_iff.mp hz) with hz | hz
      · exact hz ▸ le_of_not_lt hxf
      · exact h.1 z hz

/-- `frStored` over a cons. -/
theorem frStored_cons {α : Type} (x : ℚ × Option ℚ × MNode α) (fr) :
    frStored (x :: fr) = x.2.2.stored ++ frStored fr := rfl

/-- `frStored` respects permutation. -/
theorem frStored_perm {α : Type} {fr1 fr2 : List (ℚ × Option ℚ × MNode α)}
    (h : fr1.Perm fr2) : (frStored fr1).Perm (frStored fr2) :=
  h.flatMap_right _

/-- `frCount` over a cons. -/
theorem frCount_cons {α : Type} (x : ℚ × Option ℚ × MNode α) (fr) :
    frCount (x :: fr) = x.2.2.nodeCount + frCount fr := by
  simp [frCount]

/-- `frCount` respects permutation. -/
theorem frCount_perm {α : Type} {fr1 fr2 : List (ℚ × Option ℚ × MNode α)}
    (h : fr1.Perm fr2) : frCount fr1 = frCount fr2 :=
  (h.map _).sum_eq

/-- The coverage lower bound: everything under an entry is at least
`d(q, rout) − rad` away from the query. -/
theorem cov_lower_bound {α : Type} (d : α → α → ℚ) (q : α)
    (hsym : ∀ x y, d x y = d y x) (htri : ∀ x y z, d x z ≤ d x y + d y z)
    (ent : IEntry α) (hcov : ∀ v ∈ ent.child.stored, d ent.rout v ≤ ent.rad)
    (u : α) (hu : u ∈ ent.child.stored) :
    d q ent.rout - ent.rad ≤ d q u := by
  have h1 := htri q u ent.rout
  have h2 := hsym u ent.rout
  have h3 := hcov u hu
  linarith

/-- Specification of one internal entry step (spec k-NN step 3): the
frontier stays sorted and well-formed, grows by at most the entry's
subtree, and the entry's subtree contents are either on the new frontier
or justifiably discarded. -/
theorem internalStep_spec {α : Type} (d : α → α → ℚ) (q : α) (k : Nat)
    (hnn : ∀ x y, 0 ≤ d x y) (hsym : ∀ x y, d x y = d y x)
    (htri : ∀ x y z, d x z ≤ d x y + d y z)
    (dp : Option ℚ) (pp : Option α)
    (hdp : match pp, dp with
           | some p, some dpv => dpv = d q p
           | none, none => True
           | _, _ => False)
    (res : List (ℚ × α)) (fr : List (ℚ × Option ℚ × MNode α)) (ent : IEntry α)
    (hwf : ent.wfI d pp)
    (hfrs : fr.Pairwise (fun a b => a.1 ≤ b.1))
    (hfrok : ∀ x ∈ fr, frOK d q x) :
    (internalStep d q k dp res fr ent).Pairwise (fun a b => a.1 ≤ b.1)
    ∧ (∀ x ∈ internalStep d q k dp res fr ent, frOK d q x)
    ∧ frCount (internalStep d q k dp res fr ent) ≤ ent.countI + frCount fr
    ∧ ∃ Dv : List α,
        (frStored (internalStep d q k dp res fr ent) ++ Dv).Perm
          (ent.storedI ++ frStored fr)
        ∧ ∀ u ∈ Dv, discOK k res (d q u) := by
  obtain ⟨hdtp, hcov, hcwf⟩ := (wfI_iff d ent pp).mp hwf
  have hlow : ∀ u ∈ ent.child.stored, d q ent.rout - ent.rad ≤ d q u :=
    cov_lower_bound d q hsym htri ent hcov
  have hcore : ∀ fr0, fr0 = (if gtD (d q ent.rout - ent.rad) (dK k res) then fr
        else insFr fr (max 0 (d q ent.rout - ent.rad), some (d q ent.rout), ent.child)) →
      fr0.Pairwise (fun a b => a.1 ≤ b.1)
      ∧ (∀ x ∈ fr0, frOK d q x)
      ∧ frCount fr0 ≤ ent.countI + frCount fr
      ∧ ∃ Dv : List α, (frStored fr0 ++ Dv).Perm (ent.storedI ++ frStored fr)
          ∧ ∀ u ∈ Dv, discOK k res (d q u) := by
    intro fr0 hfr0
    by_cases hpr : gtD (d q ent.rout - ent.rad) (dK k res) = true
    · rw [if_pos hpr] at hfr0
      subst hfr0
      have hdisc : ∀ u ∈ ent.child.stored, discOK k res (d q u) := by
        intro u hu
        cases hc : dK k res with
        | none => rw [hc] at hpr; simp [gtD] at hpr
        | some c =>
          rw [hc] at hpr
          simp only [gtD, decide_eq_true_eq] at hpr
          exact ⟨c, hc, le_trans (le_of_lt hpr) (hlow u hu)⟩
      refine ⟨hfrs, hfrok, by omega, ent.storedI, List.perm_append_comm, ?_⟩
      rw [storedI_eq]
      exact hdisc
    · rw [if_neg hpr] at hfr0
      subst hfr0
      set x : ℚ × Option ℚ × MNode α :=
        (max 0 (d q ent.rout - ent.rad), some (d q ent.rout), ent.child) with hx
      have hxok : frOK d q x := by
        refine ⟨⟨some ent.rout, hcwf, rfl⟩, ?_⟩
        intro v hv
        exact max_le (hnn q v) (hlow v hv)
      refine ⟨insFr_sorted fr x hfrs, ?_, ?_, [], ?_, by simp⟩
      · intro z hz
        rcases List.mem_cons.mp ((insFr_perm fr x).mem_iff.mp hz) with hz | hz
        · exact hz ▸ hxok
        · exact hfrok z hz
      · rw [frCount_perm (insFr_perm fr x), frCount_cons, countI_eq]
      · rw [List.append_nil, storedI_eq]
        exact frStored_perm (insFr_perm fr x)
  cases dp with
  | none =>
    exact hcore _ rfl
  | some dpv =>
    cases pp with
    | none => exact absurd hdp (by simp)
    | some p =>
      have hdpv : dpv = d q p := hdp
      by_cases hskip : gtD |dpv - ent.dtp| (addD (dK k res) ent.rad) = true
      · have hstep : internalStep d q k (some dpv) res fr ent = fr := by
          simp only [internalStep]
          rw [if_pos hskip]
        rw [hstep]
        have hdisc : ∀ u ∈ ent.child.stored, discOK k res (d q u) := by
          intro u hu
          cases hc : dK k res with
          | none => rw [hc] at hskip; simp [gtD, addD] at hskip
          | some c =>
            rw [hc] at hskip
            simp only [gtD, addD, Option.map_some', decide_eq_true_eq] at hskip
            have hb : |dpv - ent.dtp| ≤ d q ent.rout := by
              rw [hdpv, hdtp p rfl]
              exact abs_dist_le d hsym htri q p ent.rout
            have := hlow u hu
            exact ⟨c, hc, by linarith⟩
        refine ⟨hfrs, hfrok, by omega, ent.storedI, List.perm_append_comm, ?_⟩
        rw [storedI_eq]
        exact hdisc
      · have hstep : internalStep d q k (some dpv) res fr ent
            = (if gtD (d q ent.rout - ent.rad) (dK k res) then fr
               else insFr fr (max 0 (d q ent.rout - ent.rad), some (d q ent.rout),
                 ent.child)) := by
          simp only [internalStep]
          rw [if_neg hskip]
        exact hstep ▸ hcore _ rfl

/-- Specification of the whole internal fold: the frontier stays sorted
and well-formed, its node count grows by at most the children's, and
every vector below the node is either on the new frontier or justifiably
discarded. -/
theorem internalFold_spec {α : Type} (d : α → α → ℚ) (q : α) (k : Nat)
    (hnn : ∀ x y, 0 ≤ d x y) (hsym : ∀ x y, d x y = d y x)
    (htri : ∀ x y z, d x z ≤ d x y + d y z)
    (dp : Option ℚ) (pp : Option α)
    (hdp : match pp, dp with
           | some p, some dpv => dpv = d q p
           | none, none => True
           | _, _ => False)
    (res : List (ℚ × α)) :
    ∀ (es : List (IEntry α)) (fr : List (ℚ × Option ℚ × MNode α)),
    (∀ E ∈ es, E.wfI d pp) →
    fr.Pairwise (fun a b => a.1 ≤ b.1) →
    (∀ x ∈ fr, frOK d q x) →
    (es.foldl (internalStep d q k dp res) fr).Pairwise (fun a b => a.1 ≤ b.1)
    ∧ (∀ x ∈ es.foldl (internalStep d q k dp res) fr, frOK d q x)
    ∧ frCount (es.foldl (internalStep d q k dp res) fr)
        ≤ (es.map IEntry.countI).sum + frCount fr
    ∧ ∃ Dv : List α,
        (frStored (es.foldl (internalStep d q k dp res) fr) ++ Dv).Perm
          (es.flatMap IEntry.storedI ++ frStored fr)
        ∧ ∀ u ∈ Dv, discOK k res (d q u)
  | [], fr, _, hfrs, hfrok =>
    ⟨hfrs, hfrok, by simp, [], by simp, by simp⟩
  | ent :: es, fr, hwf, hfrs, hfrok => by
    obtain ⟨h1, h2, h3, Dv1, hperm1, hD1⟩ :=
      internalStep_spec d q k hnn hsym htri dp pp hdp res fr ent
        (hwf ent (List.mem_cons_self ent es)) hfrs hfrok
    obtain ⟨g1, g2, g3, Dv2, hperm2, hD2⟩ :=
      internalFold_spec d q k hnn hsym htri dp pp hdp res es
        (internalStep d q k dp res fr ent)
        (fun e he => hwf e (List.mem_cons_of_mem ent he)) h1 h2
    refine ⟨g1, g2, ?_, Dv2 ++ Dv1, ?_, ?_⟩
    · simp only [List.foldl_cons, List.map_cons, List.sum_cons] at g3 ⊢
      omega
    · simp only [List.foldl_cons, List.flatMap_cons]
      rw [← List.append_assoc]
      refine (hperm2.append_right Dv1).trans ?_
      rw [List.append_assoc]
      refine (List.Perm.append_left _ hperm1).trans ?_
      rw [← List.append_assoc]
      exact (List.perm_append_comm.append_right _)
    · intro u hu
      rcases List.mem_append.mp hu with hu | hu
      · exact hD2 u hu
      · exact hD1 u hu

/-! ### The main loop -/

/-- With `k = 0` one leaf step on an empty result list keeps it empty:
the inserted entry is immediately evicted. -/
theorem leafStep_k0 {α : Type} (d : α → α → ℚ) (q : α) (dp : Option ℚ)
    (ent : α × ℚ) : leafStep d q 0 dp [] ent = [] := by
  cases dp <;> rfl

/-- With `k = 0` the result list stays empty through a whole leaf fold. -/
theorem leafFold_k0 {α : Type} (d : α → α → ℚ) (q : α) (dp : Option ℚ) :
    ∀ es : List (α × ℚ), es.foldl (leafStep d q 0 dp) [] = []
  | [] => rfl
  | ent :: es => by
    rw [List.foldl_cons, leafStep_k0, leafFold_k0 d q dp es]

/-- With `k = 0` the loop returns no results at all. -/
theorem knnLoop_k0 {α : Type} (d : α → α → ℚ) (q : α) :
    ∀ (fuel : Nat) (fr : List (ℚ × Option ℚ × MNode α)),
      knnLoop d q 0 fuel fr [] = []
  | 0, _ => rfl
  | _ + 1, [] => rfl
  | fuel + 1, (b, dp, n) :: rest => by
    have hb : ¬ gtD b (dK 0 ([] : List (ℚ × α))) = true := by
      simp [dK, gtD]
    cases n with
    | leaf es =>
      simp only [knnLoop]
      rw [if_neg hb, leafFold_k0, knnLoop_k0 d q fuel rest]
    | internal es =>
      simp only [knnLoop]
      rw [if_neg hb, knnLoop_k0 d q fuel _]

/-- Specification of the branch-and-bound loop: starting from a sorted,
well-formed frontier and a well-formed result list, the loop answers a
well-formed result list whose `d_k` did not grow, and every vector that
was below the frontier or in the results is either in the answer or
justifiably discarded (farther than the answer's `d_k`). -/
theorem knnLoop_spec {α : Type} (d : α → α → ℚ) (q : α) (k : Nat)
    (hnn : ∀ x y, 0 ≤ d x y) (hsym : ∀ x y, d x y = d y x)
    (htri : ∀ x y z, d x z ≤ d x y + d y z) (hk : 1 ≤ k) :
    ∀ (fuel : Nat) (fr : List (ℚ × Option ℚ × MNode α)) (res : List (ℚ × α)),
    frCount fr < fuel →
    fr.Pairwise (fun a b => a.1 ≤ b.1) →
    (∀ x ∈ fr, frOK d q x) →
    res.Pairwise (fun a b => a.1 ≤ b.1) →
    res.length ≤ k →
    (∀ x ∈ res, x.1 = d q x.2) →
    (knnLoop d q k fuel fr res).Pairwise (fun a b => a.1 ≤ b.1)
    ∧ (knnLoop d q k fuel fr res).length ≤ k
    ∧ (∀ x ∈ knnLoop d q k fuel fr res, x.1 = d q x.2)
    ∧ leO (dK k (knnLoop d q k fuel fr res)) (dK k res)
    ∧ ∃ Dv : List α,
        ((knnLoop d q k fuel fr res).map Prod.snd ++ Dv).Perm
          (frStored fr ++ res.map Prod.snd)
        ∧ ∀ u ∈ Dv, discOK k (knnLoop d q k fuel fr res) (d q u)
  | 0, fr, res => by
    intro hfuel
    exact absurd hfuel (Nat.not_lt_zero _)
  | fuel + 1, [], res => by
    intro _ _ _ hs hlen hd
    simp only [knnLoop]
    exact ⟨hs, hlen, hd, leO_refl _, [], by simp [frStored], by simp⟩
  | fuel + 1, (b, dp, n) :: rest, res => by
    intro hfuel hfrs hfrok hs hlen hd
    by_cases hb : gtD b (dK k res) = true
    · have hstop : knnLoop d q k (fuel + 1) ((b, dp, n) :: rest) res = res := by
        simp only [knnLoop]
        rw [if_pos hb]
      rw [hstop]
      obtain ⟨c, hc⟩ : ∃ c, dK k res = some c := by
        cases hcc : dK k res with
        | none => rw [hcc] at hb; simp [gtD] at hb
        | some c => exact ⟨c, rfl⟩
      rw [hc] at hb
      simp only [gtD, decide_eq_true_eq] at hb
      refine ⟨hs, hlen, hd, leO_refl _, frStored ((b, dp, n) :: rest),
        List.perm_append_comm, ?_⟩
      intro u hu
      simp only [frStored] at hu
      obtain ⟨x, hx, hux⟩ := List.mem_flatMap.mp hu
      have hbx : b ≤ x.1 := by
        rcases List.mem_cons.mp hx with rfl | hx'
        · exact le_refl _
        · exact (List.pairwise_cons.mp hfrs).1 x hx'
      exact ⟨c, hc, le_trans (le_of_lt hb) (le_trans hbx ((hfrok x hx).2 u hux))⟩
    · cases n with
      | leaf es =>
        have hstep : knnLoop d q k (fuel + 1) ((b, dp, .leaf es) :: rest) res
            = knnLoop d q k fuel rest (es.foldl (leafStep d q k dp) res) := by
          simp only [knnLoop]
          rw [if_neg hb]
        obtain ⟨⟨pp, hwf, hmatch⟩, hbound⟩ :=
          hfrok _ (List.mem_cons_self (b, dp, MNode.leaf es) rest)
        obtain ⟨h1, h2, h3, h4, Dv1, hperm1, hD1⟩ :=
          leafFold_spec d q k hsym htri hk dp pp hmatch es res hwf hs hlen hd
        have hrest : frCount rest < fuel := by
          rw [frCount_cons] at hfuel
          simp only [MNode.nodeCount] at hfuel
          omega
        obtain ⟨g1, g2, g3, g4, Dv2, hperm2, hD2⟩ :=
          knnLoop_spec d q k hnn hsym htri hk fuel rest
            (es.foldl (leafStep d q k dp) res) hrest
            (List.pairwise_cons.mp hfrs).2
            (fun x hx => hfrok x (List.mem_cons_of_mem _ hx))
            h1 h2 h3
        rw [hstep]
        refine ⟨g1, g2, g3, leO_trans g4 h4, Dv2 ++ Dv1, ?_, ?_⟩
        · rw [frStored_cons]
          simp only [MNode.stored]
          rw [← List.append_assoc]
          refine (hperm2.append_right Dv1).trans ?_
          rw [List.append_assoc]
          refine (List.Perm.append_left _ hperm1).trans ?_
          rw [← List.append_assoc]
          exact List.perm_append_comm.append_right _
        · intro u hu
          rcases List.mem_append.mp hu with hu | hu
          · exact hD2 u hu
          · exact discOK_mono g4 (hD1 u hu)
      | internal es =>
        have hstep : knnLoop d q k (fuel + 1) ((b, dp, .internal es) :: rest) res
            = knnLoop d q k fuel
                (es.toList.foldl (internalStep d q k dp res) rest) res := by
          simp only [knnLoop]
          rw [if_neg hb]
        obtain ⟨⟨pp, hwf, hmatch⟩, hbound⟩ :=
          hfrok _ (List.mem_cons_self (b, dp, MNode.internal es) rest)
        have hwfE : ∀ E ∈ es.toList, E.wfI d pp := (wfE_toList d es pp).mp hwf
        obtain ⟨f1, f2, f3, Dv1, hperm1, hD1⟩ :=
          internalFold_spec d q k hnn hsym htri dp pp hmatch res es.toList rest
            hwfE (List.pairwise_cons.mp hfrs).2
            (fun x hx => hfrok x (List.mem_cons_of_mem _ hx))
        have hfr' : frCount (es.toList.foldl (internalStep d q k dp res) rest)
            < fuel := by
          rw [frCount_cons] at hfuel
          simp only [MNode.nodeCount] at hfuel
          rw [← countE_toList] at f3
          omega
        obtain ⟨g1, g2, g3, g4, Dv2, hperm2, hD2⟩ :=
          knnLoop_spec d q k hnn hsym htri hk fuel _ res hfr' f1 f2 hs hlen hd
        rw [hstep]
        refine ⟨g1, g2, g3, g4, Dv2 ++ Dv1, ?_, ?_⟩
        · rw [frStored_cons]
          simp only [MNode.stored]
          rw [storedE_toList, ← List.append_assoc]
          refine (hperm2.append_right Dv1).trans ?_
          rw [List.append_assoc]
          refine (List.Perm.append_left _ List.perm_append_comm).trans ?_
          rw [← List.append_assoc]
          exact hperm1.append_right _
        · intro u hu
          rcases List.mem_append.mp hu with hu | hu
          · exact hD2 u hu
          · exact discOK_mono g4 (hD1 u hu)

/-! ### From the loop invariant to brute-force exactness -/

/-- The `k`-prefix of the sorted version of a split multiset whose left
part is sorted, has at most `k` elements (exactly `k` unless the right
part is empty), and is dominated by the right part, is exactly the left
part. -/
theorem take_mergeSort_split (k : Nat) (L M P : List ℚ)
    (hL : L.Pairwise (fun a b => a ≤ b)) (hLk : L.length ≤ k)
    (hfull : M = [] ∨ L.length = k)
    (hcross : ∀ x ∈ L, ∀ y ∈ M, x ≤ y)
    (hperm : (L ++ M).Perm P) :
    (P.mergeSort (fun a b => decide (a ≤ b))).take k = L := by
  have hsP : (P.mergeSort (fun a b => decide (a ≤ b))).Pairwise (fun a b => a ≤ b) :=
    (List.sorted_mergeSort
      (fun a b c hab hbc => by
        simp only [decide_eq_true_eq] at *
        exact le_trans hab hbc)
      (fun a b => by
        simp only [Bool.or_eq_true, decide_eq_true_eq]
        exact le_total a b)
      P).imp (fun h => decide_eq_true_eq.mp h)
  have hsM : (M.mergeSort (fun a b => decide (a ≤ b))).Pairwise (fun a b => a ≤ b) :=
    (List.sorted_mergeSort
      (fun a b c hab hbc => by
        simp only [decide_eq_true_eq] at *
        exact le_trans hab hbc)
      (fun a b => by
        simp only [Bool.or_eq_true, decide_eq_true_eq]
        exact le_total a b)
      M).imp (fun h => decide_eq_true_eq.mp h)
  have hsLM : (L ++ M.mergeSort (fun a b => decide (a ≤ b))).Pairwise
      (fun a b => a ≤ b) :=
    List.pairwise_append.mpr
      ⟨hL, hsM, fun x hx y hy => hcross x hx y (List.mem_mergeSort.mp hy)⟩
  have hpp : (P.mergeSort (fun a b => decide (a ≤ b))).Perm
      (L ++ M.mergeSort (fun a b => decide (a ≤ b))) :=
    (List.mergeSort_perm P _).trans
      (hperm.symm.trans (List.Perm.append_left L (List.mergeSort_perm M _).symm))
  rw [List.eq_of_perm_of_sorted hpp hsP hsLM]
  rcases hfull with rfl | hlen
  · rw [List.mergeSort_nil, List.append_nil]
    exact List.take_of_length_le hLk
  · rw [← hlen]
    exact List.take_left L _

/-- Full characterization of `search_knn` on a well-formed tree (the spec's
exactness property): the results are sorted ascending by distance, there
are exactly `min k size` of them, each carries the true query distance of
a stored vector, and the returned distances are exactly the `k` smallest
of a brute-force scan over all stored vectors. -/
theorem search_knn_exact {α : Type} (d : α → α → ℚ)
    (hnn : ∀ x y, 0 ≤ d x y) (hsym : ∀ x y, d x y = d y x)
    (htri : ∀ x y z, d x z ≤ d x y + d y z)
    (root : Option (MNode α)) (hroot : ∀ r, root = some r → r.wf d none)
    (q : α) (k : Nat) :
    (search_knn d root q k).Pairwise (fun a b => a.1 ≤ b.1)
    ∧ (search_knn d root q k).length = min k (storedT root).length
    ∧ (∀ x ∈ search_knn d root q k, x.1 = d q x.2 ∧ x.2 ∈ storedT root)
    ∧ (search_knn d root q k).map Prod.fst
        = (((storedT root).map (d q)).mergeSort (fun a b => decide (a ≤ b))).take k := by
  cases root with
  | none =>
    simp [search_knn, storedT, List.mergeSort_nil]
  | some r =>
    rcases Nat.eq_zero_or_pos k with rfl | hk
    · have h0 : search_knn d (some r) q 0 = [] := by
        simp only [search_knn]
        exact knnLoop_k0 d q _ _
      rw [h0]
      simp
    · have hstep : search_knn d (some r) q k
          = knnLoop d q k (1 + r.nodeCount) [(0, none, r)] [] := rfl
      have hcnt : frCount ([((0 : ℚ), (none : Option ℚ), r)]) < 1 + r.nodeCount := by
        simp [frCount]
      obtain ⟨g1, g2, g3, _, Dv, hperm, hD⟩ :=
        knnLoop_spec d q k hnn hsym htri hk (1 + r.nodeCount) [(0, none, r)] []
          hcnt (List.pairwise_singleton _ _)
          (fun x hx => by
            rcases List.mem_singleton.mp hx with rfl
            exact ⟨⟨none, hroot r rfl, trivial⟩, fun v _ => hnn q v⟩)
          List.Pairwise.nil (Nat.zero_le _) (fun x hx => absurd hx (List.not_mem_nil x))
      rw [hstep] at *
      set out := knnLoop d q k (1 + r.nodeCount) [(0, none, r)] [] with hout
      simp only [frStored, List.flatMap_cons, List.flatMap_nil, List.append_nil,
        List.map_nil] at hperm
      have hpermS : ((out.map Prod.snd) ++ Dv).Perm r.stored := hperm
      have hmem : ∀ x ∈ out, x.1 = d q x.2 ∧ x.2 ∈ r.stored := by
        intro x hx
        refine ⟨g3 x hx, ?_⟩
        exact hpermS.mem_iff.mp
          (List.mem_append_left Dv (List.mem_map_of_mem Prod.snd hx))
      have hLfst : out.map Prod.fst = (out.map Prod.snd).map (d q) := by
        rw [List.map_map]
        exact List.map_congr_left (fun x hx => g3 x hx)
      have hpermD : (out.map Prod.fst ++ Dv.map (d q)).Perm (r.stored.map (d q)) := by
        rw [hLfst, ← List.map_append]
        exact hpermS.map (d q)
      have hfull : Dv.map (d q) = [] ∨ (out.map Prod.fst).length = k := by
        cases hDv : Dv with
        | nil => exact Or.inl rfl
        | cons u t =>
          obtain ⟨c, hc, _⟩ := hD u (hDv ▸ List.mem_cons_self u t)
          have := (dK_some g1 hc).1
          rw [List.length_map]
          exact Or.inr (le_antisymm g2 this)
      have hcross : ∀ x ∈ out.map Prod.fst, ∀ y ∈ Dv.map (d q), x ≤ y := by
        intro x hx y hy
        obtain ⟨z, hz, rfl⟩ := List.mem_map.mp hx
        obtain ⟨u, hu, rfl⟩ := List.mem_map.mp hy
        obtain ⟨c, hc, hcu⟩ := hD u hu
        exact le_trans ((dK_some g1 hc).2 z hz) hcu
      have htake : ((r.stored.map (d q)).mergeSort
          (fun a b => decide (a ≤ b))).take k = out.map Prod.fst :=
        take_mergeSort_split k (out.map Prod.fst) (Dv.map (d q)) (r.stored.map (d q))
          (List.pairwise_map.mpr g1) (by rw [List.length_map]; exact g2)
          hfull hcross hpermD
      refine ⟨g1, ?_, hmem, ?_⟩
      · have := congrArg List.length htake
        rw [List.length_take, List.length_mergeSort, List.length_map,
          List.length_map] at this
        simpa [storedT] using this.symm
      · simpa [storedT] using htake.symm

/-! ### Insertion preserves the stored multiset and well-formedness -/

/-- `pickMinBy` answers `none` only on the empty list. -/
theorem pickMinBy_none {β : Type} (le : β → β → Bool) :
    ∀ l : List β, pickMinBy le l = none → l = []
  | [], _ => rfl
  | e :: es, h => by
    unfold pickMinBy at h
    cases hrec : pickMinBy le es with
    | none => rw [hrec] at h; cases h
    | some p =>
      obtain ⟨c, rest⟩ := p
      rw [hrec] at h
      by_cases hle : le e c = true <;> simp [hle] at h

/-- `pickMinBy` splits the list into the chosen element and the rest. -/
theorem pickMinBy_perm {β : Type} (le : β → β → Bool) :
    ∀ (l : List β) (c : β) (rest : List β),
      pickMinBy le l = some (c, rest) → (c :: rest).Perm l
  | [], c, rest, h => by simp [pickMinBy] at h
  | e :: es, c, rest, h => by
    unfold pickMinBy at h
    cases hrec : pickMinBy le es with
    | none =>
      rw [hrec] at h
      injection h with h
      rw [Prod.mk.injEq] at h
      obtain ⟨rfl, rfl⟩ := h
      have hes : es = [] := pickMinBy_none le es hrec
      subst hes
      exact List.Perm.refl _
    | some p =>
      obtain ⟨c', rest'⟩ := p
      rw [hrec] at h
      have h' : (if le e c' = true then some (e, es) else some (c', e :: rest'))
          = some (c, rest) := h
      by_cases hle : le e c' = true
      · rw [if_pos hle] at h'
        injection h' with h'
        rw [Prod.mk.injEq] at h'
        obtain ⟨rfl, rfl⟩ := h'
        exact List.Perm.refl _
      · rw [if_neg hle] at h'
        injection h' with h'
        rw [Prod.mk.injEq] at h'
        obtain ⟨rfl, rfl⟩ := h'
        exact (List.Perm.swap e c' rest').trans
          ((pickMinBy_perm le es c' rest' hrec).cons e)

/-- A fold whose step moves its argument into one of the two accumulator
sides preserves the combined multiset. -/
theorem foldl_pair_perm {β : Type}
    (step : List β × List β → β → List β × List β)
    (hstep : ∀ acc e,
      ((step acc e).1 ++ (step acc e).2).Perm (acc.1 ++ (acc.2 ++ [e]))) :
    ∀ (es : List β) (acc : List β × List β),
      ((es.foldl step acc).1 ++ (es.foldl step acc).2).Perm
        (acc.1 ++ (acc.2 ++ es))
  | [], acc => by simp
  | e :: es, acc => by
    rw [List.foldl_cons]
    refine (foldl_pair_perm step hstep es (step acc e)).trans ?_
    rw [← List.append_assoc]
    refine ((hstep acc e).append_right es).trans ?_
    simp [List.append_assoc]

/-- `partitionBy` preserves the multiset of entries. -/
theorem partitionBy_perm {α β : Type} (d : α → α → ℚ) (routOf : β → α)
    (a b : α) (es : List β) :
    ((partitionBy d routOf a b es).1 ++ (partitionBy d routOf a b es).2).Perm es := by
  have h := foldl_pair_perm
    (fun acc e =>
      let da := d (routOf e) a
      let db := d (routOf e) b
      if da < db then (acc.1 ++ [e], acc.2)
      else if db < da then (acc.1, acc.2 ++ [e])
      else if acc.1.length ≤ acc.2.length then (acc.1 ++ [e], acc.2)
      else (acc.1, acc.2 ++ [e]))
    (by
      intro acc e
      dsimp only
      split
      · rw [List.append_assoc]
        exact List.Perm.append_left _ List.perm_append_comm
      · split
        · exact List.Perm.refl _
        · split
          · rw [List.append_assoc]
            exact List.Perm.append_left _ List.perm_append_comm
          · exact List.Perm.refl _)
    es ([], [])
  simpa [partitionBy] using h

/-- `balance` preserves the combined multiset of the two sides. -/
theorem balance_perm {α β : Type} (d : α → α → ℚ) (routOf : β → α) (a b : α)
    (mc : Nat) :
    ∀ (fuel : Nat) (s : List β × List β),
      ((balance d routOf a b mc fuel s).1
        ++ (balance d routOf a b mc fuel s).2).Perm (s.1 ++ s.2)
  | 0, s => List.Perm.refl _
  | fuel + 1, (as, bs) => by
    simp only [balance]
    split
    · cases hpick : pickMinBy (fun x y => d (routOf x) a ≤ d (routOf y) a) bs with
      | none => exact List.Perm.refl _
      | some p =>
        obtain ⟨x, bs'⟩ := p
        refine (balance_perm d routOf a b mc fuel (as ++ [x], bs')).trans ?_
        show ((as ++ [x]) ++ bs').Perm (as ++ bs)
        rw [List.append_assoc]
        exact List.Perm.append_left as (pickMinBy_perm _ bs x bs' hpick)
    · split
      · cases hpick : pickMinBy (fun x y => d (routOf x) b ≤ d (routOf y) b) as with
        | none => exact List.Perm.refl _
        | some p =>
          obtain ⟨x, as'⟩ := p
          refine (balance_perm d routOf a b mc fuel (as', bs ++ [x])).trans ?_
          show (as' ++ (bs ++ [x])).Perm (as ++ bs)
          have hp : (x :: as').Perm as := pickMinBy_perm _ as x as' hpick
          refine ((List.Perm.append_left as' List.perm_append_comm).trans ?_).trans
            (hp.append_right bs)
          exact List.perm_middle
      · exact List.Perm.refl _

/-- The initial accumulator bounds a `max` fold from below. -/
theorem init_le_foldl_max : ∀ (l : List ℚ) (a : ℚ), a ≤ l.foldl max a
  | [], a => le_refl a
  | y :: t, a => le_trans (le_max_left a y) (init_le_foldl_max t (max a y))

/-- Every member bounds a `max` fold from below. -/
theorem le_foldl_max : ∀ (l : List ℚ) (a x : ℚ), x ∈ l → x ≤ l.foldl max a
  | [], _, x, hx => absurd hx (List.not_mem_nil x)
  | y :: t, a, x, hx => by
    rw [List.foldl_cons]
    rcases List.mem_cons.mp hx with rfl | hx'
    · exact le_trans (le_max_right a x) (init_le_foldl_max t _)
    · exact le_foldl_max t (max a y) x hx'

/-- Refreshing the `distance_to_parent` caches of an entry list does not
change what is stored below it. -/
theorem flatMap_storedI_remap {α : Type} (d : α → α → ℚ) (p : α) :
    ∀ l : List (IEntry α),
      ((l.map (fun e => IEntry.mk e.rout e.rad (d e.rout p) e.child)).flatMap
        IEntry.storedI) = l.flatMap IEntry.storedI
  | [] => rfl
  | e :: t => by
    obtain ⟨r, rad, dtp, c⟩ := e
    simp only [List.map_cons, List.flatMap_cons, flatMap_storedI_remap d p t]
    rfl

/-- Stored vectors of a rebuilt leaf side. -/
theorem leafSide_stored {α : Type} (d : α → α → ℚ) (l : List (α × ℚ)) (p : α) :
    (MNode.leaf (l.map (fun e => (e.1, d e.1 p)))).stored = l.map Prod.fst := by
  show (l.map _).map Prod.fst = _
  rw [List.map_map]
  exact List.map_congr_left (fun e _ => rfl)

/-- Stored vectors of a rebuilt internal side. -/
theorem internalSide_stored {α : Type} (d : α → α → ℚ) (l : List (IEntry α))
    (p : α) :
    (MNode.internal (EList.ofList
      (l.map (fun e => IEntry.mk e.rout e.rad (d e.rout p) e.child)))).stored
      = l.flatMap IEntry.storedI := by
  show (EList.ofList _).storedE = _
  rw [storedE_toList, toList_ofList, flatMap_storedI_remap]

/-- A leaf split with any promoted pair fulfils the insertion contract. -/
theorem splitLeafWith_insOK {α : Type} (d : α → α → ℚ)
    (hsym : ∀ x y, d x y = d y x) (mc : Nat) (ab : α × α)
    (es : List (α × ℚ)) (v : α) (pp : Option α) (base : List α)
    (hbase : (es.map Prod.fst).Perm (v :: base)) :
    InsOK d v pp base (splitLeafWith d mc ab es) := by
  have hperm : ((balance d Prod.fst ab.1 ab.2 mc es.length
        (partitionBy d Prod.fst ab.1 ab.2 es)).1
      ++ (balance d Prod.fst ab.1 ab.2 mc es.length
        (partitionBy d Prod.fst ab.1 ab.2 es)).2).Perm es :=
    (balance_perm d Prod.fst ab.1 ab.2 mc es.length _).trans
      (partitionBy_perm d Prod.fst ab.1 ab.2 es)
  refine ⟨?_, ?_, ?_, ?_, ?_⟩
  · rw [leafSide_stored, leafSide_stored, ← List.map_append]
    exact (hperm.map Prod.fst).trans hbase
  · intro e he x hx
    obtain ⟨w, hw, rfl⟩ := List.mem_map.mp he
    injection hx with hx
    subst hx
    rfl
  · rw [leafSide_stored]
    intro u hu
    obtain ⟨w, hw, rfl⟩ := List.mem_map.mp hu
    rw [hsym ab.1 w.1]
    exact le_foldl_max _ 0 _ (List.mem_map.mpr ⟨w, hw, rfl⟩)
  · intro e he x hx
    obtain ⟨w, hw, rfl⟩ := List.mem_map.mp he
    injection hx with hx
    subst hx
    rfl
  · rw [leafSide_stored]
    intro u hu
    obtain ⟨w, hw, rfl⟩ := List.mem_map.mp hu
    rw [hsym ab.2 w.1]
    exact le_foldl_max _ 0 _ (List.mem_map.mpr ⟨w, hw, rfl⟩)

/-- `splitLeaf` on a non-empty entry list fulfils the insertion contract. -/
theorem splitLeaf_insOK {α : Type} (d : α → α → ℚ)
    (hsym : ∀ x y, d x y = d y x) (mc : Nat)
    (es : List (α × ℚ)) (hne : es ≠ []) (v : α) (pp : Option α) (base : List α)
    (hbase : (es.map Prod.fst).Perm (v :: base)) :
    InsOK d v pp base (splitLeaf d mc es) := by
  cases es with
  | nil => exact absurd rfl hne
  | cons e0 rest =>
    exact splitLeafWith_insOK d hsym mc _ (e0 :: rest) v pp base hbase

/-- An internal split with any promoted pair fulfils the insertion
contract, given that each entry covers its subtree. -/
theorem splitInternalWith_insOK {α : Type} (d : α → α → ℚ)
    (hsym : ∀ x y, d x y = d y x) (htri : ∀ x y z, d x z ≤ d x y + d y z)
    (mc : Nat) (ab : α × α) (es : List (IEntry α)) (v : α) (pp : Option α)
    (base : List α)
    (hents : ∀ E ∈ es, (∀ u ∈ E.child.stored, d E.rout u ≤ E.rad)
      ∧ E.child.wf d (some E.rout))
    (hbase : (es.flatMap IEntry.storedI).Perm (v :: base)) :
    InsOK d v pp base (splitInternalWith d mc ab es) := by
  have hperm : ((balance d IEntry.rout ab.1 ab.2 mc es.length
        (partitionBy d IEntry.rout ab.1 ab.2 es)).1
      ++ (balance d IEntry.rout ab.1 ab.2 mc es.length
        (partitionBy d IEntry.rout ab.1 ab.2 es)).2).Perm es :=
    (balance_perm d IEntry.rout ab.1 ab.2 mc es.length _).trans
      (partitionBy_perm d IEntry.rout ab.1 ab.2 es)
  have hside : ∀ (l : List (IEntry α)) (p : α), (∀ E ∈ l, E ∈ es) →
      ((MNode.internal (EList.ofList
          (l.map (fun e => IEntry.mk e.rout e.rad (d e.rout p) e.child)))).wf d
        (some p))
      ∧ ∀ u ∈ (MNode.internal (EList.ofList
          (l.map (fun e => IEntry.mk e.rout e.rad (d e.rout p) e.child)))).stored,
          d p u ≤ intRadius d p l := by
    intro l p hsub
    constructor
    · show (EList.ofList _).wfE d (some p)
      rw [wfE_toList, toList_ofList]
      intro E hE
      obtain ⟨e, he, rfl⟩ := List.mem_map.mp hE
      have hcov := (hents e (hsub e he)).1
      have hcwf := (hents e (hsub e he)).2
      obtain ⟨r, rad, dtp, c⟩ := e
      rw [wfI_iff]
      refine ⟨?_, ?_, ?_⟩
      · intro x hx
        injection hx with hx
        subst hx
        rfl
      · intro u hu
        exact hcov u hu
      · exact hcwf
    · rw [internalSide_stored]
      intro u hu
      obtain ⟨e, he, hue⟩ := List.mem_flatMap.mp hu
      rw [storedI_eq] at hue
      have h1 : d p u ≤ d p e.rout + d e.rout u := htri p e.rout u
      have h2 : d e.rout u ≤ e.rad := (hents e (hsub e he)).1 u hue
      have h3 : d p e.rout = d e.rout p := hsym p e.rout
      have h4 : d e.rout p + e.rad ≤ intRadius d p l :=
        le_foldl_max _ 0 _ (List.mem_map.mpr ⟨e, he, rfl⟩)
      linarith
  have hmem1 : ∀ E ∈ (balance d IEntry.rout ab.1 ab.2 mc es.length
      (partitionBy d IEntry.rout ab.1 ab.2 es)).1, E ∈ es := by
    intro E hE
    exact hperm.mem_iff.mp (List.mem_append_left _ hE)
  have hmem2 : ∀ E ∈ (balance d IEntry.rout ab.1 ab.2 mc es.length
      (partitionBy d IEntry.rout ab.1 ab.2 es)).2, E ∈ es := by
    intro E hE
    exact hperm.mem_iff.mp (List.mem_append_right _ hE)
  refine ⟨?_, (hside _ ab.1 hmem1).1, (hside _ ab.1 hmem1).2,
    (hside _ ab.2 hmem2).1, (hside _ ab.2 hmem2).2⟩
  rw [internalSide_stored, internalSide_stored, ← List.flatMap_append]
  exact (hperm.flatMap_right IEntry.storedI).trans hbase

/-- `splitInternal` on a non-empty entry list fulfils the insertion
contract. -/
theorem splitInternal_insOK {α : Type} (d : α → α → ℚ)
    (hsym : ∀ x y, d x y = d y x) (htri : ∀ x y z, d x z ≤ d x y + d y z)
    (mc : Nat) (es : List (IEntry α)) (hne : es ≠ []) (v : α) (pp : Option α)
    (base : List α)
    (hents : ∀ E ∈ es, (∀ u ∈ E.child.stored, d E.rout u ≤ E.rad)
      ∧ E.child.wf d (some E.rout))
    (hbase : (es.flatMap IEntry.storedI).Perm (v :: base)) :
    InsOK d v pp base (splitInternal d mc es) := by
  cases es with
  | nil => exact absurd rfl hne
  | cons e0 rest =>
    exact splitInternalWith_insOK d hsym htri mc _ (e0 :: rest) v pp base
      hents hbase

/-- The selected index is always in range on a non-empty list. -/
theorem idxOfMin_lt {β : Type} (le : β → β → Bool) :
    ∀ l : List β, l ≠ [] → idxOfMin le l < l.length
  | [], h => absurd rfl h
  | [x], _ => by simp [idxOfMin]
  | x :: y :: t, _ => by
    have ih := idxOfMin_lt le (y :: t) (by simp)
    simp only [idxOfMin]
    split
    · simp only [List.length_cons]
      omega
    · split
      · simp only [List.length_cons]
        omega
      · simp only [List.length_cons] at ih ⊢
        omega

mutual
/-- Inserting below a well-formed node fulfils the insertion contract:
the result stores exactly the old multiset plus the new vector and is
well-formed (spec insertion steps 1-4 plus "Split"). -/
theorem insertNode_spec {α : Type} (d : α → α → ℚ)
    (hsym : ∀ x y, d x y = d y x) (htri : ∀ x y z, d x z ≤ d x y + d y z)
    (maxc mc : Nat) :
    ∀ (n : MNode α) (v : α) (pp : Option α), n.wf d pp →
      InsOK d v pp n.stored (insertNode d maxc mc n v pp)
  | .leaf es, v, pp, hwf => by
    simp only [insertNode]
    split
    · exact splitLeaf_insOK d hsym mc _ (by simp) v pp _
        (by
          rw [List.map_append]
          exact List.perm_append_singleton v (es.map Prod.fst))
    · refine ⟨?_, ?_⟩
      · show ((es ++ [(v, _)]).map Prod.fst).Perm (v :: es.map Prod.fst)
        rw [List.map_append]
        exact List.perm_append_singleton v (es.map Prod.fst)
      · intro p hp x hx
        rcases List.mem_append.mp hp with hp' | hp'
        · exact hwf p hp' x hx
        · rcases List.mem_singleton.mp hp' with rfl
          subst hx
          rfl
  | .internal .enil, v, pp, _ => by
    simp only [insertNode]
    refine ⟨List.Perm.refl _, ?_⟩
    intro p hp x hx
    rcases List.mem_singleton.mp hp with rfl
    subst hx
    rfl
  | .internal (.econs e t), v, pp, hwf => by
    have hj : idxOfMin (selCmp d v) (EList.econs e t).toList
        < (EList.econs e t).toList.length :=
      idxOfMin_lt _ _ (by simp [EList.toList])
    obtain ⟨hperm, hwf', hne⟩ :=
      insertIdx_spec d hsym htri maxc mc (.econs e t)
        (idxOfMin (selCmp d v) (EList.econs e t).toList) v pp hwf hj
    simp only [insertNode]
    split
    · exact splitInternal_insOK d hsym htri mc _ hne v pp _
        (fun E hE => ⟨((wfI_iff d E pp).mp (hwf' E hE)).2.1,
          ((wfI_iff d E pp).mp (hwf' E hE)).2.2⟩)
        hperm
    · refine ⟨?_, ?_⟩
      · show ((EList.ofList _).storedE).Perm _
        rw [storedE_toList, toList_ofList]
        exact hperm
      · show (EList.ofList _).wfE d pp
        rw [wfE_toList, toList_ofList]
        exact hwf'
/-- Inserting at a valid index of a well-formed entry list answers a
non-empty, well-formed entry list storing exactly the old multiset plus
the new vector. -/
theorem insertIdx_spec {α : Type} (d : α → α → ℚ)
    (hsym : ∀ x y, d x y = d y x) (htri : ∀ x y z, d x z ≤ d x y + d y z)
    (maxc mc : Nat) :
    ∀ (es : EList α) (j : Nat) (v : α) (pp : Option α), es.wfE d pp →
      j < es.toList.length →
      ((insertIdx d maxc mc es j v pp).flatMap IEntry.storedI).Perm
        (v :: es.storedE)
      ∧ (∀ E ∈ insertIdx d maxc mc es j v pp, E.wfI d pp)
      ∧ insertIdx d maxc mc es j v pp ≠ []
  | .enil, j, v, pp, _, hj => by simp [EList.toList] at hj
  | .econs (.mk rout rad dtp c) t, 0, v, pp, hwf, _ => by
    obtain ⟨hdtp, hcov, hcwf⟩ := (wfI_iff d (.mk rout rad dtp c) pp).mp hwf.1
    have hins := insertNode_spec d hsym htri maxc mc c v (some rout) hcwf
    simp only [insertIdx]
    cases hres : insertNode d maxc mc c v (some rout) with
    | single c' =>
      rw [hres] at hins
      obtain ⟨hst, hcwf'⟩ := hins
      refine ⟨?_, ?_, by simp⟩
      · show (c'.stored ++ t.toList.flatMap IEntry.storedI).Perm
          (v :: (c.stored ++ t.storedE))
        rw [← storedE_toList]
        exact hst.append_right t.storedE
      · intro E hE
        rcases List.mem_cons.mp hE with rfl | hE'
        · rw [wfI_iff]
          refine ⟨fun x hx => hdtp x hx, ?_, hcwf'⟩
          intro u hu
          rcases List.mem_cons.mp (hst.mem_iff.mp hu) with heq | hu'
          · subst heq
            show d rout u ≤ max rad (d u rout)
            rw [hsym rout u]
            exact le_max_right rad (d u rout)
          · exact le_trans (hcov u hu') (le_max_left rad (d v rout))
        · exact (wfE_toList d t pp).mp hwf.2 E hE'
    | split p1 r1 n1 p2 r2 n2 =>
      rw [hres] at hins
      obtain ⟨hst, hwf1, hrad1, hwf2, hrad2⟩ := hins
      refine ⟨?_, ?_, by simp⟩
      · show (n1.stored ++ (n2.stored ++ t.toList.flatMap IEntry.storedI)).Perm
          (v :: (c.stored ++ t.storedE))
        rw [← storedE_toList, ← List.append_assoc]
        exact hst.append_right t.storedE
      · intro E hE
        rcases List.mem_cons.mp hE with rfl | hE'
        · rw [wfI_iff]
          refine ⟨?_, hrad1, hwf1⟩
          intro x hx
          subst hx
          rfl
        · rcases List.mem_cons.mp hE' with rfl | hE''
          · rw [wfI_iff]
            refine ⟨?_, hrad2, hwf2⟩
            intro x hx
            subst hx
            rfl
          · exact (wfE_toList d t pp).mp hwf.2 E hE''
  | .econs e t, j + 1, v, pp, hwf, hj => by
    have hj' : j < t.toList.length := by
      simp only [EList.toList, List.length_cons] at hj
      omega
    obtain ⟨hperm, hwf', _⟩ :=
      insertIdx_spec d hsym htri maxc mc t j v pp hwf.2 hj'
    simp only [insertIdx]
    refine ⟨?_, ?_, by simp⟩
    · show (e.storedI ++ (insertIdx d maxc mc t j v pp).flatMap
          IEntry.storedI).Perm (v :: (e.storedI ++ t.storedE))
      exact (List.Perm.append_left e.storedI hperm).trans List.perm_middle
    · intro E hE
      rcases List.mem_cons.mp hE with rfl | hE'
      · exact hwf.1
      · exact hwf' E hE'
end

/-- `insert` preserves tree well-formedness and adds the vector to the
stored multiset (a root split allocates a new internal root). -/
theorem insert_wf {α : Type} (d : α → α → ℚ)
    (hsym : ∀ x y, d x y = d y x) (htri : ∀ x y z, d x z ≤ d x y + d y z)
    (maxc mc : Nat) (root : Option (MNode α)) (v : α) (h : wfT d root) :
    wfT d (insert d maxc mc root v)
    ∧ (storedT (insert d maxc mc root v)).Perm (v :: storedT root) := by
  cases root with
  | none =>
    refine ⟨?_, List.Perm.refl _⟩
    intro p hp x hx
    cases hx
  | some r =>
    have hins := insertNode_spec d hsym htri maxc mc r v none h
    simp only [insert]
    cases hres : insertNode d maxc mc r v none with
    | single n =>
      rw [hres] at hins
      exact ⟨hins.2, hins.1⟩
    | split p1 r1 n1 p2 r2 n2 =>
      rw [hres] at hins
      obtain ⟨hst, hwf1, hrad1, hwf2, hrad2⟩ := hins
      refine ⟨?_, ?_⟩
      · show (EList.ofList [IEntry.mk p1 r1 0 n1, IEntry.mk p2 r2 0 n2]).wfE d none
        rw [wfE_toList, toList_ofList]
        intro E hE
        rcases List.mem_cons.mp hE with rfl | hE'
        · rw [wfI_iff]
          exact ⟨fun x hx => Option.noConfusion hx, hrad1, hwf1⟩
        · rcases List.mem_cons.mp hE' with rfl | hE''
          · rw [wfI_iff]
            exact ⟨fun x hx => Option.noConfusion hx, hrad2, hwf2⟩
          · exact absurd hE'' (List.not_mem_nil E)
      · show ((EList.ofList
            [IEntry.mk p1 r1 0 n1, IEntry.mk p2 r2 0 n2]).storedE).Perm
          (v :: r.stored)
        rw [storedE_toList, toList_ofList]
        show (n1.stored ++ (n2.stored ++ [])).Perm (v :: r.stored)
        rw [List.append_nil]
        exact hst

/-- A fold of inserts from any well-formed start stays well-formed and
accumulates the inserted vectors. -/
theorem buildTree_go {α : Type} (d : α → α → ℚ)
    (hsym : ∀ x y, d x y = d y x) (htri : ∀ x y z, d x z ≤ d x y + d y z)
    (maxc mc : Nat) :
    ∀ (vs : List α) (root : Option (MNode α)), wfT d root →
      wfT d (vs.foldl (insert d maxc mc) root)
      ∧ (storedT (vs.foldl (insert d maxc mc) root)).Perm (vs ++ storedT root)
  | [], root, h => ⟨h, by simp⟩
  | v :: vs, root, h => by
    rw [List.foldl_cons]
    obtain ⟨h1, h2⟩ := insert_wf d hsym htri maxc mc root v h
    obtain ⟨g1, g2⟩ :=
      buildTree_go d hsym htri maxc mc vs (insert d maxc mc root v) h1
    refine ⟨g1, ?_⟩
    refine (g2.trans (List.Perm.append_left vs h2)).trans ?_
    exact List.perm_middle

/-- The tree built by a sequence of inserts is well-formed and stores
exactly the inserted vectors. -/
theorem buildTree_wf {α : Type} (d : α → α → ℚ)
    (hsym : ∀ x y, d x y = d y x) (htri : ∀ x y z, d x z ≤ d x y + d y z)
    (maxc mc : Nat) (vs : List α) :
    wfT d (buildTree d maxc mc vs)
    ∧ (storedT (buildTree d maxc mc vs)).Perm vs := by
  obtain ⟨h1, h2⟩ := buildTree_go d hsym htri maxc mc vs none trivial
  refine ⟨h1, ?_⟩
  show (storedT (vs.foldl (insert d maxc mc) none)).Perm vs
  simpa [storedT] using h2

/-- `mergeSort` by `≤` answers an ascending list. -/
theorem mergeSort_sorted_le (P : List ℚ) :
    (P.mergeSort (fun a b => decide (a ≤ b))).Pairwise (fun a b => a ≤ b) :=
  (List.sorted_mergeSort
    (fun a b c hab hbc => by
      simp only [decide_eq_true_eq] at *
      exact le_trans hab hbc)
    (fun a b => by
      simp only [Bool.or_eq_true, decide_eq_true_eq]
      exact le_total a b)
    P).imp (fun h => decide_eq_true_eq.mp h)

/-- Permuted inputs sort to the same list. -/
theorem mergeSort_perm_eq (L1 L2 : List ℚ) (h : L1.Perm L2) :
    L1.mergeSort (fun a b => decide (a ≤ b))
      = L2.mergeSort (fun a b => decide (a ≤ b)) :=
  List.eq_of_perm_of_sorted
    ((List.mergeSort_perm L1 _).trans (h.trans (List.mergeSort_perm L2 _).symm))
    (mergeSort_sorted_le L1) (mergeSort_sorted_le L2)

/-- **C1.** For every metric tree built by a sequence of inserts (any node
degrees), every query `q`, and every `k`, `knn(q, k)` returns exactly
`min k size` results sorted ascending by distance, each carrying the true
query distance of a stored vector, and the returned distances equal the
`k` smallest distances obtained by a brute-force scan over all stored
vectors — exactly over `ℚ`, hence in particular within any tolerance. -/
theorem C1_mtree_knn_exact {α : Type} (d : α → α → ℚ)
    (hnn : ∀ x y, 0 ≤ d x y) (hsym : ∀ x y, d x y = d y x)
    (htri : ∀ x y z, d x z ≤ d x y + d y z)
    (maxc mc : Nat) (vs : List α) (q : α) (k : Nat) :
    (search_knn d (buildTree d maxc mc vs) q k).length = min k vs.length
    ∧ (search_knn d (buildTree d maxc mc vs) q k).Pairwise (fun a b => a.1 ≤ b.1)
    ∧ (∀ x ∈ search_knn d (buildTree d maxc mc vs) q k, x.1 = d q x.2 ∧ x.2 ∈ vs)
    ∧ (search_knn d (buildTree d maxc mc vs) q k).map Prod.fst
        = ((vs.map (d q)).mergeSort (fun a b => decide (a ≤ b))).take k := by
  obtain ⟨hwf, hst⟩ := buildTree_wf d hsym htri maxc mc vs
  obtain ⟨g1, g2, g3, g4⟩ :=
    search_knn_exact d hnn hsym htri (buildTree d maxc mc vs)
      (fun r hr => by rw [hr] at hwf; exact hwf) q k
  refine ⟨?_, g1, ?_, ?_⟩
  · rw [g2, hst.length_eq]
  · intro x hx
    obtain ⟨hx1, hx2⟩ := g3 x hx
    exact ⟨hx1, hst.mem_iff.mp hx2⟩
  · rw [g4, mergeSort_perm_eq _ (vs.map (d q)) (hst.map (d q))]

/-- Witness for C1 at the absolute-difference metric on `ℚ`, three
inserted vectors, and `k = 2`. -/
theorem C1_mtree_knn_exact_witness :
    (∀ x y : ℚ, 0 ≤ (fun x y : ℚ => |x - y|) x y)
    ∧ (∀ x y : ℚ, (fun x y : ℚ => |x - y|) x y = (fun x y : ℚ => |x - y|) y x)
    ∧ (∀ x y z : ℚ, (fun x y : ℚ => |x - y|) x z
        ≤ (fun x y : ℚ => |x - y|) x y + (fun x y : ℚ => |x - y|) y z)
    ∧ ((search_knn (fun x y : ℚ => |x - y|)
          (buildTree (fun x y : ℚ => |x - y|) 2 1 [3, 1, 2]) 0 2).length
        = min 2 ([3, 1, 2] : List ℚ).length
      ∧ (search_knn (fun x y : ℚ => |x - y|)
          (buildTree (fun x y : ℚ => |x - y|) 2 1 [3, 1, 2]) 0 2).Pairwise
            (fun a b => a.1 ≤ b.1)
      ∧ (∀ x ∈ search_knn (fun x y : ℚ => |x - y|)
          (buildTree (fun x y : ℚ => |x - y|) 2 1 [3, 1, 2]) 0 2,
          x.1 = (fun x y : ℚ => |x - y|) 0 x.2 ∧ x.2 ∈ ([3, 1, 2] : List ℚ))
      ∧ (search_knn (fun x y : ℚ => |x - y|)
          (buildTree (fun x y : ℚ => |x - y|) 2 1 [3, 1, 2]) 0 2).map Prod.fst
        = ((([3, 1, 2] : List ℚ).map ((fun x y : ℚ => |x - y|) 0)).mergeSort
            (fun a b => decide (a ≤ b))).take 2) :=
  ⟨fun x y => abs_nonneg (x - y), fun x y => abs_sub_comm x y,
    fun x y z => abs_sub_le x y z,
    C1_mtree_knn_exact (fun x y : ℚ => |x - y|)
      (fun x y => abs_nonneg (x - y)) (fun x y => abs_sub_comm x y)
      (fun x y z => abs_sub_le x y z) 2 1 [3, 1, 2] 0 2⟩

end MT

namespace VecSearch

/-- Reading back the numeric payload of a serialized number is the identity. -/
theorem SnippetItem.toNum_comp_num : SnippetItem.toNum ∘ SnippetItem.num = id := rfl

/-! ## Helper lemmas about the ring primitives -/

/-- Inserting at the `bisect_left` position adds the new point, as a
multiset. -/
theorem insortLeft_perm (x : Nat) : ∀ l : List Nat, (insortLeft l x).Perm (x :: l)
  | [] => List.Perm.refl _
  | y :: ys => by
    unfold insortLeft
    by_cases h : y < x
    · simp only [if_pos h]
      exact ((insortLeft_perm x ys).cons y).trans (List.Perm.swap x y ys)
    · simp only [if_neg h]
      exact List.Perm.refl _

/-- Inserting at the `bisect_left` position keeps the ring sorted. -/
theorem insortLeft_pairwise (x : Nat) :
    ∀ l : List Nat, l.Pairwise (· ≤ ·) → (insortLeft l x).Pairwise (· ≤ ·)
  | [], _ => by simp [insortLeft]
  | y :: ys, h => by
    rw [List.pairwise_cons] at h
    unfold insortLeft
    by_cases hyx : y < x
    · simp only [if_pos hyx]
      rw [List.pairwise_cons]
      refine ⟨?_, insortLeft_pairwise x ys h.2⟩
      intro z hz
      rcases List.mem_cons.mp ((insortLeft_perm x ys).mem_iff.mp hz) with hzx | hzys
      · exact hzx ▸ le_of_lt hyx
      · exact h.1 z hzys
    · simp only [if_neg hyx]
      rw [List.pairwise_cons]
      have hxy : x ≤ y := le_of_not_lt hyx
      refine ⟨?_, List.pairwise_cons.mpr h⟩
      intro z hz
      rcases List.mem_cons.mp hz with hzy | hzys
      · exact hzy ▸ hxy
      · exact le_trans hxy (h.1 z hzys)

/-- Python `dict` assignment with a fresh key appends the new pair. -/
theorem dictSet_fresh (m : List (Nat × String)) (k : Nat) (v : String)
    (h : ∀ p ∈ m, p.1 ≠ k) : dictSet m k v = m ++ [(k, v)] := by
  unfold dictSet
  rw [if_neg]
  simp only [List.any_eq_true, beq_iff_eq, not_exists, not_and]
  exact fun p hp => h p hp

/-- A key present in an association list has a lookup value, and the found
pair is a member of the list. -/
theorem lookup_mem_of_mem_keys :
    ∀ (m : List (Nat × String)) (k : Nat), k ∈ m.map Prod.fst →
      ∃ v, m.lookup k = some v ∧ (k, v) ∈ m
  | [], k, h => by simp at h
  | (k', v') :: m, k, h => by
    by_cases hk : k = k'
    · subst hk
      exact ⟨v', by simp [List.lookup], by simp⟩
    · simp only [List.map_cons, List.mem_cons] at h
      rcases h with h | h
      · exact absurd h hk
      · obtain ⟨v, hv, hmem⟩ := lookup_mem_of_mem_keys m k h
        refine ⟨v, ?_, List.mem_cons_of_mem _ hmem⟩
        simpa [List.lookup, beq_false_of_ne hk] using hv

/-- `bisect_left` never exceeds the list length. -/
theorem bisect_left_le_length : ∀ (l : List Nat) (x : Nat), bisect_left l x ≤ l.length
  | [], _ => Nat.le_refl 0
  | y :: ys, x => by
    unfold bisect_left
    by_cases h : y < x
    · simp only [if_pos h, List.length_cons]
      exact Nat.succ_le_succ (bisect_left_le_length ys x)
    · simp only [if_neg h, List.length_cons]
      exact Nat.zero_le _

/-- The `add_node` loop never touches the replica count or the node list. -/
theorem addFold_state (name : String) :
    ∀ (is : List Nat) (st : ConsistentHasher),
      (is.foldl (addPoint name) st).replicas = st.replicas
      ∧ (is.foldl (addPoint name) st).nodes = st.nodes
  | [], _ => ⟨rfl, rfl⟩
  | i :: is, st => by
    have ih := addFold_state name is (addPoint name st i)
    simpa [List.foldl_cons] using ih

/-- The `add_node` loop adds exactly the hash points of the processed
virtual keys to the ring, as a multiset. -/
theorem addFold_ring_perm (name : String) :
    ∀ (is : List Nat) (st : ConsistentHasher),
      (is.foldl (addPoint name) st).ring.Perm (st.ring ++ is.map (keyHash name))
  | [], st => by simp
  | i :: is, st => by
    have ih := addFold_ring_perm name is (addPoint name st i)
    have hstep : (addPoint name st i).ring.Perm (keyHash name i :: st.ring) :=
      insortLeft_perm _ _
    simp only [List.foldl_cons, List.map_cons]
    refine ih.trans ?_
    exact (hstep.append_right _).trans List.perm_middle.symm

/-- With hash points fresh for the current map and mutually distinct, the
`add_node` loop appends exactly the new `(point, name)` entries to
`node_map`, in index order. -/
theorem addFold_map (name : String) :
    ∀ (is : List Nat) (st : ConsistentHasher),
      (∀ i ∈ is, ∀ p ∈ st.node_map, p.1 ≠ keyHash name i) →
      (is.map (keyHash name)).Nodup →
      (is.foldl (addPoint name) st).node_map
        = st.node_map ++ is.map (fun i => (keyHash name i, name))
  | [], st, _, _ => by simp
  | i :: is, st, hfresh, hnodup => by
    rw [List.map_cons, List.nodup_cons] at hnodup
    have hset : (addPoint name st i).node_map
        = st.node_map ++ [(keyHash name i, name)] := by
      unfold addPoint
      exact dictSet_fresh _ _ _ (fun p hp => hfresh i (List.mem_cons_self i is) p hp)
    have hfresh' : ∀ j ∈ is, ∀ p ∈ (addPoint name st i).node_map,
        p.1 ≠ keyHash name j := by
      intro j hj p hp
      rw [hset] at hp
      rcases List.mem_append.mp hp with hp | hp
      · exact hfresh j (List.mem_cons_of_mem _ hj) p hp
      · simp only [List.mem_singleton] at hp
        subst hp
        intro heq
        apply hnodup.1
        rw [show keyHash name i = ((keyHash name i, name)).1 from rfl, heq]
        exact List.mem_map_of_mem (keyHash name) hj
    have ih := addFold_map name is (addPoint name st i) hfresh' hnodup.2
    simp only [List.foldl_cons, List.map_cons]
    rw [ih, hset, List.append_assoc, List.singleton_append]

/-- The `remove_node` loop never touches the replica count or the node list. -/
theorem removeFold_state :
    ∀ (ps : List Nat) (st : ConsistentHasher),
      (ps.foldl removePoint st).replicas = st.replicas
      ∧ (ps.foldl removePoint st).nodes = st.nodes
  | [], _ => ⟨rfl, rfl⟩
  | p :: ps, st => by
    simpa [List.foldl_cons] using removeFold_state ps (removePoint st p)

/-- The `remove_node` loop keeps the ring sorted. -/
theorem removeFold_sorted :
    ∀ (ps : List Nat) (st : ConsistentHasher),
      st.ring.Pairwise (· ≤ ·) → (ps.foldl removePoint st).ring.Pairwise (· ≤ ·)
  | [], _, h => h
  | p :: ps, st, h => by
    have hstep : (removePoint st p).ring.Pairwise (· ≤ ·) :=
      List.Pairwise.sublist (List.erase_sublist p st.ring) h
    simpa [List.foldl_cons] using removeFold_sorted ps (removePoint st p) hstep

/-- The `remove_node` loop filters the processed points out of `node_map`. -/
theorem removeFold_map :
    ∀ (ps : List Nat) (st : ConsistentHasher),
      (ps.foldl removePoint st).node_map
        = st.node_map.filter (fun q => decide (q.1 ∉ ps))
  | [], st => by simp
  | p :: ps, st => by
    have ih := removeFold_map ps (removePoint st p)
    simp only [List.foldl_cons]
    rw [ih]
    show (st.node_map.filter (fun q => q.1 != p)).filter (fun q => decide (q.1 ∉ ps)) = _
    rw [List.filter_filter]
    apply List.filter_congr
    intro q _
    by_cases h1 : q.1 = p <;> by_cases h2 : q.1 ∈ ps <;> simp [h1, h2]

/-- Under distinct map keys, the `remove_node` loop keeps the ring a
permutation of the map keys (and the keys distinct). -/
theorem removeFold_ring :
    ∀ (ps : List Nat) (st : ConsistentHasher),
      st.ring.Perm (st.node_map.map Prod.fst) →
      (st.node_map.map Prod.fst).Nodup →
      (ps.foldl removePoint st).ring.Perm ((ps.foldl removePoint st).node_map.map Prod.fst)
      ∧ ((ps.foldl removePoint st).node_map.map Prod.fst).Nodup
  | [], _, hperm, hnodup => ⟨hperm, hnodup⟩
  | p :: ps, st, hperm, hnodup => by
    have hkeys : (removePoint st p).node_map.map Prod.fst
        = (st.node_map.map Prod.fst).filter (fun k => k != p) := by
      show (st.node_map.filter (fun q => q.1 != p)).map Prod.fst = _
      rw [List.filter_map]
      rfl
    have hperm' : (removePoint st p).ring.Perm ((removePoint st p).node_map.map Prod.fst) := by
      show (st.ring.erase p).Perm _
      rw [hkeys, ← List.Nodup.erase_eq_filter hnodup p]
      exact hperm.erase p
    have hnodup' : ((removePoint st p).node_map.map Prod.fst).Nodup := by
      rw [hkeys]
      exact List.Nodup.sublist (List.filter_sublist _) hnodup
    simpa [List.foldl_cons] using removeFold_ring ps (removePoint st p) hperm' hnodup'

/-- The `add_node` loop keeps the ring sorted. -/
theorem addFold_sorted (name : String) :
    ∀ (is : List Nat) (st : ConsistentHasher),
      st.ring.Pairwise (· ≤ ·) → (is.foldl (addPoint name) st).ring.Pairwise (· ≤ ·)
  | [], _, h => h
  | i :: is, st, h => by
    have hstep : (addPoint name st i).ring.Pairwise (· ≤ ·) :=
      insortLeft_pairwise _ _ h
    simpa [List.foldl_cons] using addFold_sorted name is (addPoint name st i) hstep

/-- The keys contributed by one node are the hashes of its virtual keys. -/
theorem nodeEntries_keys (r : Nat) (n : String) :
    (nodeEntries r n).map Prod.fst = (List.range r).map (keyHash n) := by
  rw [nodeEntries, List.map_map]
  rfl

/-- Membership in the invariant-shaped `node_map`. -/
theorem inv_map_mem {replicas : Nat} {N : List String} {s : ConsistentHasher}
    (hInv : Inv replicas N s) (p : Nat × String) :
    p ∈ s.node_map ↔ ∃ n ∈ s.nodes, ∃ i < replicas, p = (keyHash n i, n) := by
  rw [hInv.2.1]
  simp only [List.mem_flatten, List.mem_map]
  constructor
  · rintro ⟨l, ⟨n, hn, rfl⟩, hpl⟩
    simp only [nodeEntries, List.mem_map, List.mem_range] at hpl
    obtain ⟨i, hi, rfl⟩ := hpl
    exact ⟨n, hn, i, hi, rfl⟩
  · rintro ⟨n, hn, i, hi, rfl⟩
    refine ⟨nodeEntries replicas n, ⟨n, hn, rfl⟩, ?_⟩
    simp only [nodeEntries, List.mem_map, List.mem_range]
    exact ⟨i, hi, rfl⟩

/-- Under collision-free hashing the invariant-shaped map has distinct
keys. -/
theorem inv_keys_nodup {replicas : Nat} {N : List String} {s : ConsistentHasher}
    (hinj : KeysInj replicas N) (hInv : Inv replicas N s) :
    (s.node_map.map Prod.fst).Nodup := by
  have hsub := hInv.2.2.2.2.2
  have hL : s.node_map.map Prod.fst
      = (s.nodes.map (fun n => (List.range replicas).map (keyHash n))).flatten := by
    rw [hInv.2.1, List.map_flatten, List.map_map]
    congr 1
    apply List.map_congr_left
    intro n _
    simpa using nodeEntries_keys replicas n
  rw [hL, List.nodup_flatten]
  constructor
  · intro l hl
    obtain ⟨n, hn, rfl⟩ := List.mem_map.mp hl
    refine List.Nodup.map_on ?_ (List.nodup_range replicas)
    intro i hi j hj hij
    exact (hinj n (hsub n hn) n (hsub n hn) i (List.mem_range.mp hi)
      j (List.mem_range.mp hj) hij).2
  · rw [List.pairwise_map]
    refine List.Pairwise.imp_of_mem ?_ hInv.2.2.2.2.1
    intro n m hn hm hnm x hxn hxm
    obtain ⟨i, hi, rfl⟩ := List.mem_map.mp hxn
    obtain ⟨j, hj, hji⟩ := List.mem_map.mp hxm
    exact hnm (hinj n (hsub n hn) m (hsub m hm) i (List.mem_range.mp hi)
      j (List.mem_range.mp hj) hji.symm).1

/-- `add_node` preserves the invariant when the added name is drawn from the
collision-free name universe. -/
theorem add_node_inv {replicas : Nat} {N : List String} {s : ConsistentHasher}
    (hinj : KeysInj replicas N) (hInv : Inv replicas N s)
    (name : String) (hname : name ∈ N) :
    Inv replicas N (s.add_node name) := by
  unfold ConsistentHasher.add_node
  by_cases hmem : name ∈ s.nodes
  · rw [if_pos hmem]; exact hInv
  · rw [if_neg hmem]
    obtain ⟨hrep, hmap, hperm, hsort, hnd, hsub⟩ := hInv
    subst hrep
    have hInv' : Inv s.replicas N s := ⟨rfl, hmap, hperm, hsort, hnd, hsub⟩
    have hfresh : ∀ i ∈ List.range s.replicas,
        ∀ p ∈ ({ s with nodes := s.nodes ++ [name] } : ConsistentHasher).node_map,
          p.1 ≠ keyHash name i := by
      intro i hi p hp
      obtain ⟨n, hn, j, hj, rfl⟩ := (inv_map_mem hInv' p).mp hp
      intro heq
      have hni := hinj n (hsub n hn) name hname j hj i (List.mem_range.mp hi) heq
      exact hmem (hni.1 ▸ hn)
    have hknodup : ((List.range s.replicas).map (keyHash name)).Nodup := by
      refine List.Nodup.map_on ?_ (List.nodup_range s.replicas)
      intro i hi j hj hij
      exact (hinj name hname name hname i (List.mem_range.mp hi)
        j (List.mem_range.mp hj) hij).2
    have hmap' := addFold_map name (List.range s.replicas) _ hfresh hknodup
    have hring := addFold_ring_perm name (List.range s.replicas)
      { s with nodes := s.nodes ++ [name] }
    have hstate := addFold_state name (List.range s.replicas)
      { s with nodes := s.nodes ++ [name] }
    have hpairs : ((List.range s.replicas).map
        (fun i => (keyHash name i, name))).map Prod.fst
        = (List.range s.replicas).map (keyHash name) := by
      rw [List.map_map]
      rfl
    refine ⟨hstate.1, ?_, ?_, addFold_sorted name _ _ hsort, ?_, ?_⟩
    · rw [hmap', hstate.2]
      show s.node_map ++ _ = ((s.nodes ++ [name]).map (nodeEntries s.replicas)).flatten
      rw [List.map_append, List.flatten_append, ← hmap]
      simp [nodeEntries]
    · rw [hmap', List.map_append, hpairs]
      refine hring.trans ?_
      exact hperm.append_right _
    · rw [hstate.2]
      show (s.nodes ++ [name]).Nodup
      rw [List.nodup_append]
      exact ⟨hnd, List.nodup_singleton name, fun a ha hb =>
        hmem ((List.mem_singleton.mp hb) ▸ ha)⟩
    · intro n hn
      rw [hstate.2] at hn
      rcases List.mem_append.mp hn with h | h
      · exact hsub n h
      · exact (List.mem_singleton.mp h) ▸ hname

/-- Membership in the flattened entry groups of a node list. -/
theorem mem_flatten_entries {r : Nat} {ns : List String} {p : Nat × String} :
    p ∈ (ns.map (nodeEntries r)).flatten ↔ ∃ n ∈ ns, ∃ i < r, p = (keyHash n i, n) := by
  simp only [List.mem_flatten, List.mem_map]
  constructor
  · rintro ⟨l, ⟨n, hn, rfl⟩, hpl⟩
    simp only [nodeEntries, List.mem_map, List.mem_range] at hpl
    obtain ⟨i, hi, rfl⟩ := hpl
    exact ⟨n, hn, i, hi, rfl⟩
  · rintro ⟨n, hn, i, hi, rfl⟩
    refine ⟨nodeEntries r n, ⟨n, hn, rfl⟩, ?_⟩
    simp only [nodeEntries, List.mem_map, List.mem_range]
    exact ⟨i, hi, rfl⟩

/-- Filtering the grouped map by a name that is not present selects
nothing. -/
theorem filter_value_nil (r : Nat) (name : String) :
    ∀ ns : List String, name ∉ ns →
      (ns.map (nodeEntries r)).flatten.filter (fun p => p.2 == name) = []
  | [], _ => rfl
  | n :: ns, h => by
    simp only [List.map_cons, List.flatten_cons, List.filter_append]
    rw [filter_value_nil r name ns (fun hm => h (List.mem_cons_of_mem _ hm))]
    rw [List.append_nil]
    rw [List.filter_eq_nil_iff]
    intro p hp
    simp only [nodeEntries, List.mem_map, List.mem_range] at hp
    obtain ⟨i, _, rfl⟩ := hp
    simp only [beq_iff_eq]
    exact fun he => h (he ▸ List.mem_cons_self n ns)

/-- The points `remove_node` selects are exactly the virtual-key hashes of
the removed node (under distinct node names). -/
theorem points_to_remove_eq (r : Nat) (name : String) :
    ∀ ns : List String, ns.Nodup → name ∈ ns →
      ((ns.map (nodeEntries r)).flatten.filter (fun p => p.2 == name)).map Prod.fst
        = (List.range r).map (keyHash name)
  | [], _, h => absurd h (List.not_mem_nil name)
  | n :: ns, hnd, h => by
    rw [List.nodup_cons] at hnd
    simp only [List.map_cons, List.flatten_cons, List.filter_append, List.map_append]
    by_cases hn : n = name
    · subst hn
      rw [filter_value_nil r n ns hnd.1, List.map_nil, List.append_nil]
      have hkeep : (nodeEntries r n).filter (fun p => p.2 == n) = nodeEntries r n := by
        rw [List.filter_eq_self]
        intro p hp
        simp only [nodeEntries, List.mem_map, List.mem_range] at hp
        obtain ⟨i, _, rfl⟩ := hp
        exact beq_self_eq_true n
      rw [hkeep, nodeEntries_keys]
    · have hskip : (nodeEntries r n).filter (fun p => p.2 == name) = [] := by
        rw [List.filter_eq_nil_iff]
        intro p hp
        simp only [nodeEntries, List.mem_map, List.mem_range] at hp
        obtain ⟨i, _, rfl⟩ := hp
        simp only [beq_iff_eq]
        exact hn
      rw [hskip, List.map_nil, List.nil_append]
      rcases List.mem_cons.mp h with he | hm
      · exact absurd he.symm hn
      · exact points_to_remove_eq r name ns hnd.2 hm

/-- Dropping the removed node's hash points from the grouped map leaves
exactly the groups of the remaining nodes. -/
theorem filterOut_flatten (r : Nat) (N : List String) (hinj : KeysInj r N)
    (name : String) (hnameN : name ∈ N) :
    ∀ ns : List String, ns.Nodup → (∀ n ∈ ns, n ∈ N) →
      (ns.map (nodeEntries r)).flatten.filter
          (fun q => decide (q.1 ∉ (List.range r).map (keyHash name)))
        = ((ns.erase name).map (nodeEntries r)).flatten
  | [], _, _ => rfl
  | n :: ns, hnd, hsub => by
    rw [List.nodup_cons] at hnd
    simp only [List.map_cons, List.flatten_cons, List.filter_append]
    by_cases hn : n = name
    · subst hn
      rw [List.erase_cons_head]
      have hgone : (nodeEntries r n).filter
          (fun q => decide (q.1 ∉ (List.range r).map (keyHash n))) = [] := by
        rw [List.filter_eq_nil_iff]
        intro p hp
        simp only [nodeEntries, List.mem_map, List.mem_range] at hp
        obtain ⟨i, hi, rfl⟩ := hp
        simp only [decide_eq_true_eq, not_not]
        exact List.mem_map_of_mem (keyHash n) (List.mem_range.mpr hi)
      rw [hgone, List.nil_append]
      rw [List.filter_eq_self]
      intro q hq
      obtain ⟨m, hm, i, hi, rfl⟩ := mem_flatten_entries.mp hq
      simp only [decide_eq_true_eq]
      intro hqmem
      obtain ⟨j, hj, hji⟩ := List.mem_map.mp hqmem
      have := (hinj n hnameN m (hsub m (List.mem_cons_of_mem _ hm))
        j (List.mem_range.mp hj) i hi hji).1
      exact hnd.1 (this ▸ hm)
    · rw [List.erase_cons_tail (by simpa using fun he => hn he)]
      simp only [List.map_cons, List.flatten_cons]
      have hkeep : (nodeEntries r n).filter
          (fun q => decide (q.1 ∉ (List.range r).map (keyHash name))) = nodeEntries r n := by
        rw [List.filter_eq_self]
        intro p hp
        simp only [nodeEntries, List.mem_map, List.mem_range] at hp
        obtain ⟨i, hi, rfl⟩ := hp
        simp only [decide_eq_true_eq]
        intro hqmem
        obtain ⟨j, hj, hji⟩ := List.mem_map.mp hqmem
        exact hn (hinj n (hsub n (List.mem_cons_self n ns)) name hnameN
          i hi j (List.mem_range.mp hj) hji.symm).1
      rw [hkeep]
      rw [filterOut_flatten r N hinj name hnameN ns hnd.2
        (fun m hm => hsub m (List.mem_cons_of_mem _ hm))]

/-- `remove_node` preserves the invariant. -/
theorem remove_node_inv {replicas : Nat} {N : List String} {s : ConsistentHasher}
    (hinj : KeysInj replicas N) (hInv : Inv replicas N s) (name : String) :
    Inv replicas N (s.remove_node name) := by
  unfold ConsistentHasher.remove_node
  by_cases hmem : name ∈ s.nodes
  · rw [if_neg (not_not_intro hmem)]
    obtain ⟨hrep, hmap, hperm, hsort, hnd, hsub⟩ := hInv
    subst hrep
    have hInv' : Inv s.replicas N s := ⟨rfl, hmap, hperm, hsort, hnd, hsub⟩
    have hpts : (s.node_map.filter (fun p => p.2 == name)).map (fun p => p.1)
        = (List.range s.replicas).map (keyHash name) := by
      rw [hmap]
      exact points_to_remove_eq s.replicas name s.nodes hnd hmem
    have hkeys := inv_keys_nodup hinj hInv'
    have hrm := removeFold_ring
      ((s.node_map.filter (fun p => p.2 == name)).map (fun p => p.1))
      { s with nodes := s.nodes.erase name } hperm hkeys
    have hmapF := removeFold_map
      ((s.node_map.filter (fun p => p.2 == name)).map (fun p => p.1))
      { s with nodes := s.nodes.erase name }
    have hstate := removeFold_state
      ((s.node_map.filter (fun p => p.2 == name)).map (fun p => p.1))
      { s with nodes := s.nodes.erase name }
    refine ⟨hstate.1, ?_, hrm.1, removeFold_sorted _ _ hsort, ?_, ?_⟩
    · rw [hmapF, hstate.2]
      show s.node_map.filter
          (fun q => decide (q.1 ∉ (s.node_map.filter (fun p => p.2 == name)).map
            (fun p => p.1)))
        = ((s.nodes.erase name).map (nodeEntries s.replicas)).flatten
      rw [hpts, hmap]
      exact filterOut_flatten s.replicas N hinj name (hsub name hmem) s.nodes hnd hsub
    · rw [hstate.2]
      exact hnd.erase name
    · intro n hn
      rw [hstate.2] at hn
      exact hsub n (List.mem_of_mem_erase hn)
  · rw [if_pos hmem]
    exact hInv

/-- Total size of the grouped map. -/
theorem sum_map_length_nodeEntries (replicas : Nat) :
    ∀ l : List String,
      (l.map (fun n => (nodeEntries replicas n).length)).sum = replicas * l.length
  | [] => by simp
  | n :: l => by
    have ih := sum_map_length_nodeEntries replicas l
    simp only [List.map_cons, List.sum_cons, ih, List.length_cons]
    have hn : (nodeEntries replicas n).length = replicas := by
      simp [nodeEntries]
    rw [hn]
    ring

/-- Under the invariant the ring holds `replicas * |nodes|` points. -/
theorem inv_ring_length {replicas : Nat} {N : List String} {s : ConsistentHasher}
    (hInv : Inv replicas N s) : s.ring.length = replicas * s.nodes.length := by
  rw [hInv.2.2.1.length_eq, List.length_map, hInv.2.1, List.length_flatten,
    List.map_map]
  exact sum_map_length_nodeEntries replicas s.nodes

/-- A name added somewhere in the tail was added in the whole sequence. -/
theorem addNames_cons_sub {op : RingOp} {ops : List RingOp} :
    ∀ n ∈ addNames ops, n ∈ addNames (op :: ops) := by
  intro n hn
  cases op with
  | add m =>
    simp only [addNames, List.filterMap_cons] at hn ⊢
    exact List.mem_cons_of_mem m hn
  | remove m =>
    simpa only [addNames, List.filterMap_cons] using hn

/-- The ring stays sorted after every operation sequence, with no
collision-freeness assumption. -/
theorem runOps_sorted (replicas : Nat) (ops : List RingOp) :
    (runOps replicas ops).ring.Pairwise (· ≤ ·) := by
  suffices h : ∀ (ops' : List RingOp) (s : ConsistentHasher),
      s.ring.Pairwise (· ≤ ·) →
      (ops'.foldl ConsistentHasher.applyOp s).ring.Pairwise (· ≤ ·) by
    exact h ops (ConsistentHasher.init replicas) (by simp [ConsistentHasher.init])
  intro ops'
  induction ops' with
  | nil => exact fun s h => h
  | cons op ops' ih =>
    intro s h
    rw [List.foldl_cons]
    apply ih
    cases op with
    | add n =>
      show (s.add_node n).ring.Pairwise (· ≤ ·)
      unfold ConsistentHasher.add_node
      by_cases hm : n ∈ s.nodes
      · rwa [if_pos hm]
      · rw [if_neg hm]
        exact addFold_sorted n _ _ h
    | remove n =>
      show (s.remove_node n).ring.Pairwise (· ≤ ·)
      unfold ConsistentHasher.remove_node
      by_cases hm : n ∉ s.nodes
      · rwa [if_pos hm]
      · rw [if_neg hm]
        exact removeFold_sorted _ _ h

/-- Every state reachable under collision-free hashing of the added names
satisfies the invariant. -/
theorem runOps_inv (replicas : Nat) (ops : List RingOp)
    (hinj : KeysInj replicas (addNames ops)) :
    Inv replicas (addNames ops) (runOps replicas ops) := by
  have hstep : ∀ (N : List String), KeysInj replicas N →
      ∀ (ops' : List RingOp) (s : ConsistentHasher),
        (∀ n ∈ addNames ops', n ∈ N) → Inv replicas N s →
        Inv replicas N (ops'.foldl ConsistentHasher.applyOp s) := by
    intro N hinjN ops'
    induction ops' with
    | nil => exact fun s _ hInv => hInv
    | cons op ops' ih =>
      intro s hsub hInv
      rw [List.foldl_cons]
      apply ih
      · exact fun n hn => hsub n (addNames_cons_sub n hn)
      · cases op with
        | add n =>
          exact add_node_inv hinjN hInv n
            (hsub n (by simp [addNames, List.filterMap_cons]))
        | remove n => exact remove_node_inv hinjN hInv n
  exact hstep (addNames ops) hinj ops (ConsistentHasher.init replicas)
    (fun n hn => hn)
    ⟨rfl, rfl, by simp [ConsistentHasher.init], by simp [ConsistentHasher.init],
      by simp [ConsistentHasher.init], by simp [ConsistentHasher.init]⟩

/-! ## Claim C7 -/

/-- C7: for every pair of equal-dimension vectors in which at least one
operand has zero norm, the cosine distance metric returned by
`get_distance_metric('cosine')` evaluates to exactly `1.0` (the similarity
branch returns `0.0` for a zero-norm operand, and the metric is `1 - sim`). -/
theorem C7_cosine_zero_norm_distance_one
    (sqrt : ℚ → ℚ) (v1 v2 : List ℚ)
    (hdim : v1.length = v2.length)
    (hz : sqrt (sumSq v1) = 0 ∨ sqrt (sumSq v2) = 0)
    (f : List ℚ → List ℚ → Except String ℚ)
    (hf : get_distance_metric sqrt "cosine" = .ok f) :
    f v1 v2 = .ok 1 := by
  have hg : get_distance_metric sqrt "cosine"
      = .ok (fun a b => (cosine_similarity sqrt a b).map (fun s => 1 - s)) := rfl
  rw [hg] at hf
  injection hf with hf
  subst hf
  simp only [cosine_similarity, hdim, ne_eq, not_true_eq_false, if_false, if_pos hz]
  norm_num [Except.map]

/-- Witness for C7 at `sqrt := id`, `v1 = [0]`, `v2 = [3]`. -/
theorem C7_cosine_zero_norm_distance_one_witness :
    [(0 : ℚ)].length = [(3 : ℚ)].length
    ∧ id (sumSq [(0 : ℚ)]) = 0
    ∧ (fun a b => (cosine_similarity id a b).map (fun s => 1 - s))
        [(0 : ℚ)] [(3 : ℚ)] = .ok 1 :=
  ⟨rfl, by norm_num [sumSq],
    C7_cosine_zero_norm_distance_one id [0] [3] rfl
      (Or.inl (by norm_num [sumSq])) _ rfl⟩

/-! ## Claim C10 -/

/-- C10: a `SearchResult` whose vector has dimension at most 5 round-trips
exactly through `to_dict`/`from_dict`; with dimension greater than 5,
`to_dict` emits only the 5-element snippet plus the `'...'` marker and the
round trip cannot reconstruct the result (the snippet branch of `from_dict`
in fact raises, since `models.py` never imports `logger`). -/
theorem C10_searchresult_roundtrip (r : SearchResult) (hid : r.vector.id ≠ "") :
    (r.vector.data.length ≤ 5 →
      SearchResult.from_dict (SearchResult.to_dict r) = .ok r)
    ∧ (r.vector.data.length > 5 →
      (SearchResult.to_dict r).vector_data_snippet
        = (r.vector.data.take 5).map SnippetItem.num ++ [SnippetItem.ellipsis]
      ∧ ∀ r', SearchResult.from_dict (SearchResult.to_dict r) ≠ .ok r') := by
  constructor
  · intro hlen
    have hgt : ¬ r.vector.data.length > 5 := by omega
    simp only [SearchResult.to_dict, SearchResult.from_dict, if_neg hgt]
    have hmem : SnippetItem.ellipsis ∉ r.vector.data.map SnippetItem.num := by
      simp [List.mem_map]
    simp only [if_neg hmem]
    simp [mkVector, hid, List.map_map, SnippetItem.toNum_comp_num, Except.map]
  · intro hlen
    constructor
    · simp [SearchResult.to_dict, hlen]
    · intro r'
      have hmem : SnippetItem.ellipsis
          ∈ (r.vector.data.take 5).map SnippetItem.num ++ [SnippetItem.ellipsis] := by
        simp
      simp [SearchResult.to_dict, SearchResult.from_dict, hlen, hmem]

/-- Witness for C10 at a concrete two-dimensional result. -/
theorem C10_searchresult_roundtrip_witness :
    SearchResult.from_dict (SearchResult.to_dict ⟨⟨"a", [1, 2], []⟩, 5⟩)
      = .ok ⟨⟨"a", [1, 2], []⟩, 5⟩ :=
  (C10_searchresult_roundtrip ⟨⟨"a", [1, 2], []⟩, 5⟩ (by decide)).1 (by decide)

/-! ## Claim C3 -/

/-- C3 counterexample: with a valid query and a tree search that raises, the
worker's `search_knn` and `search_range` return the empty list instead of
surfacing the error (the claim says a result list is never returned in place
of the error). -/
theorem C3_counterexample :
    WorkerService.search_knn (fun _ _ => .error "InternalTreeError") q0dict 3 = []
    ∧ Vector.from_dict q0dict = .ok ⟨"q", [1], []⟩
    ∧ WorkerService.search_range (fun _ _ => .error "InternalTreeError") q0dict 1 = [] := by
  refine ⟨rfl, rfl, rfl⟩

/-- C3 amended: when query parsing or the underlying tree search raises, the
worker catches the exception, logs it, and returns an empty result list to
its caller; the error is not surfaced. -/
theorem C3_amended_error_swallowed_to_empty_list
    (knn : Vector → Nat → Except String (List SearchResult))
    (rng : Vector → ℚ → Except String (List SearchResult))
    (d : VDict) (k : Nat) (radius : ℚ) (e1 e2 : String)
    (h1 : (Vector.from_dict d).bind (fun q => knn q k) = .error e1)
    (h2 : (Vector.from_dict d).bind (fun q => rng q radius) = .error e2) :
    WorkerService.search_knn knn d k = []
    ∧ WorkerService.search_range rng d radius = [] := by
  unfold WorkerService.search_knn WorkerService.search_range
  rw [h1, h2]
  exact ⟨rfl, rfl⟩

/-- Witness for the amended C3 at a concrete erroring tree search. -/
theorem C3_amended_witness :
    WorkerService.search_knn (fun _ _ => .error "boom") q0dict 2 = []
    ∧ WorkerService.search_range (fun _ _ => .error "boom") q0dict 1 = [] :=
  C3_amended_error_swallowed_to_empty_list
    (fun _ _ => .error "boom") (fun _ _ => .error "boom") q0dict 2 1
    "boom" "boom" rfl rfl

/-! ## Claim C5 -/

set_option maxRecDepth 1000000 in
/-- C5 counterexample: the single virtual keys `"n12185-0"` and `"n35389-0"`
collide under the 32-bit SHA-1 ring hash, so adding both nodes (the second
overwrites the shared `node_map` point) and removing the first leaves the
shared point twice on the ring: 2 entries instead of `REPLICAS × |nodes|
= 1 × 1`. -/
theorem C5_counterexample :
    (runOps 1 [RingOp.add "n12185", RingOp.add "n35389",
        RingOp.remove "n12185"]).replicas = 1
    ∧ (runOps 1 [RingOp.add "n12185", RingOp.add "n35389",
        RingOp.remove "n12185"]).nodes.length = 1
    ∧ (runOps 1 [RingOp.add "n12185", RingOp.add "n35389",
        RingOp.remove "n12185"]).ring.length = 2
    ∧ keyHash "n12185" 0 = keyHash "n35389" 0 := by
  refine ⟨rfl, by decide, by decide, by decide⟩

/-- C5 amended: after every sequence of `add_node`/`remove_node` calls the
ring is sorted ascending by hash point; and provided no two virtual keys of
the added nodes collide under the 32-bit SHA-1 ring hash, it contains
exactly `REPLICAS × |nodes|` entries. -/
theorem C5_amended_sorted_and_size (replicas : Nat) (ops : List RingOp) :
    (runOps replicas ops).ring.Pairwise (· ≤ ·)
    ∧ (KeysInj replicas (addNames ops) →
        (runOps replicas ops).ring.length
          = replicas * (runOps replicas ops).nodes.length) :=
  ⟨runOps_sorted replicas ops,
    fun hinj => inv_ring_length (runOps_inv replicas ops hinj)⟩

set_option maxRecDepth 1000000 in
/-- Witness for the amended C5 on a one-node, one-replica ring. -/
theorem C5_amended_witness :
    KeysInj 1 (addNames [RingOp.add "a"])
    ∧ (runOps 1 [RingOp.add "a"]).ring.Pairwise (· ≤ ·)
    ∧ (runOps 1 [RingOp.add "a"]).ring.length
        = 1 * (runOps 1 [RingOp.add "a"]).nodes.length :=
  ⟨by unfold KeysInj; decide, (C5_amended_sorted_and_size 1 [RingOp.add "a"]).1,
    (C5_amended_sorted_and_size 1 [RingOp.add "a"]).2 (by unfold KeysInj; decide)⟩

/-! ## Claim C6 -/

/-- C6: the ring hash equals the low 32 bits of the SHA-1 digest of the
UTF-8 key, and `add_node` inserts exactly the hash points of the virtual
keys `"{node_id}-{i}"` for decimal `i` from `0` to `REPLICAS-1`. -/
theorem C6_hash_contract (key : String) (s : ConsistentHasher) (name : String)
    (h : name ∉ s.nodes) :
    _hash key = sha1Nat (utf8Encode key) &&& (2 ^ 32 - 1)
    ∧ (s.add_node name).ring.Perm
        (s.ring ++ (virtualKeys name s.replicas).map _hash) := by
  constructor
  · show sha1Nat (utf8Encode key) % 2 ^ 32 = _
    rw [Nat.and_pow_two_sub_one_eq_mod]
  · unfold ConsistentHasher.add_node
    rw [if_neg h]
    refine (addFold_ring_perm name (List.range s.replicas) _).trans ?_
    have he : (virtualKeys name s.replicas).map _hash
        = (List.range s.replicas).map (keyHash name) := by
      rw [virtualKeys, List.map_map]
      rfl
    rw [he]

/-- Witness for C6 at a fresh one-replica ring. -/
theorem C6_hash_contract_witness :
    _hash "abc" = sha1Nat (utf8Encode "abc") &&& (2 ^ 32 - 1)
    ∧ ((ConsistentHasher.init 1).add_node "a").ring.Perm
        ((ConsistentHasher.init 1).ring
          ++ (virtualKeys "a" (ConsistentHasher.init 1).replicas).map _hash) :=
  C6_hash_contract "abc" (ConsistentHasher.init 1) "a"
    (by simp [ConsistentHasher.init])

/-! ## Claim C9 -/

set_option maxRecDepth 1000000 in
/-- C9 counterexample: add two nodes whose single virtual keys collide (the
second overwrites the shared `node_map` point), then remove the second; its
removal deletes the shared map entry but only one of the two ring
occurrences, so with one physical node still present `get_node` hits a ring
point that is missing from `node_map` and raises `KeyError`. -/
theorem C9_counterexample :
    (runOps 1 [RingOp.add "n12185", RingOp.add "n35389",
        RingOp.remove "n35389"]).nodes = ["n12185"]
    ∧ (runOps 1 [RingOp.add "n12185", RingOp.add "n35389",
        RingOp.remove "n35389"]).get_node "anykey" = .error .keyError := by
  refine ⟨by decide, by rfl⟩

/-- C9 amended: with at least one virtual replica per node and
collision-free hashing of the added names, any `get_node` call on a ring
with at least one physical node returns (without error) a node currently in
the node set. -/
theorem C9_amended_get_node_ok (replicas : Nat) (ops : List RingOp) (key : String)
    (hrep : 1 ≤ replicas) (hinj : KeysInj replicas (addNames ops))
    (hne : (runOps replicas ops).nodes ≠ []) :
    ∃ n ∈ (runOps replicas ops).nodes,
      (runOps replicas ops).get_node key = .ok (some n) := by
  have hInv := runOps_inv replicas ops hinj
  have hlen := inv_ring_length hInv
  have hnodes : 0 < (runOps replicas ops).nodes.length := List.length_pos.mpr hne
  have hpos : 0 < (runOps replicas ops).ring.length := by
    rw [hlen]
    exact Nat.mul_pos hrep hnodes
  have hidx : wrapIdx (bisect_left (runOps replicas ops).ring (_hash key))
      (runOps replicas ops).ring.length < (runOps replicas ops).ring.length := by
    unfold wrapIdx
    by_cases h : bisect_left (runOps replicas ops).ring (_hash key)
        = (runOps replicas ops).ring.length
    · rw [if_pos h]
      exact hpos
    · rw [if_neg h]
      exact lt_of_le_of_ne (bisect_left_le_length _ _) h
  obtain ⟨p, hp⟩ : ∃ p, (runOps replicas ops).ring.get?
      (wrapIdx (bisect_left (runOps replicas ops).ring (_hash key))
        (runOps replicas ops).ring.length) = some p := by
    rw [List.get?_eq_get hidx]
    exact ⟨_, rfl⟩
  have hpmem : p ∈ (runOps replicas ops).ring := List.get?_mem hp
  have hpkeys : p ∈ (runOps replicas ops).node_map.map Prod.fst :=
    (hInv.2.2.1.mem_iff).mp hpmem
  obtain ⟨v, hv, hmemv⟩ := lookup_mem_of_mem_keys _ p hpkeys
  obtain ⟨n, hn, i, hi, he⟩ := (inv_map_mem hInv (p, v)).mp hmemv
  have hvn : v = n := congrArg Prod.snd he
  have hne' : (runOps replicas ops).ring.isEmpty = false := by
    rcases hl : (runOps replicas ops).ring with _ | ⟨a, l⟩
    · rw [hl] at hpos
      simp at hpos
    · rfl
  refine ⟨v, hvn ▸ hn, ?_⟩
  simp only [ConsistentHasher.get_node, hne', Bool.false_eq_true, if_false, hp, hv]

set_option maxRecDepth 1000000 in
/-- Witness for the amended C9 on a one-node, one-replica ring. -/
theorem C9_amended_witness :
    ∃ n ∈ (runOps 1 [RingOp.add "a"]).nodes,
      (runOps 1 [RingOp.add "a"]).get_node "k" = .ok (some n) :=
  C9_amended_get_node_ok 1 [RingOp.add "a"] "k" (Nat.le_refl 1)
    (by unfold KeysInj; decide) (by decide)

/-! ## Claim C4 -/

/-- C4 (code bug): a coordinator k-NN search issued while no workers are
registered is answered with HTTP 200 and an empty result list; the
repository's own test suite asserts a 503 response whose body says
`No active workers`, and the spec requires `NoActiveWorkers` with a
503-class error. -/
theorem C4_no_workers_returns_200_empty :
    orchestrator_app.search_knn [] (fun _ => .error ())
      (some { query_vector := some q0dict, k := some 1 })
      = (200, .ok []) := by
  simp [orchestrator_app.search_knn, OrchestratorService.search_knn,
    OrchestratorService.gather_knn, q0dict, Vector.from_dict, mkVector, pure, Except.pure,
    bind, Except.bind]

/-! ## Claim C8 -/

/-- C8 counterexample: the coordinator's merged result list keeps a
result with id `"b"` ahead of an equal-distance result with the smaller id
`"a"` (the sort key is the distance alone; `SearchResult.__lt__` also
compares only distances), so equal-distance ties are not broken by id. -/
theorem C8_counterexample :
    OrchestratorService.search_knn [("w1", "u1")]
        (fun _ => .ok [rb.to_dict, ra.to_dict]) 2
      = .ok [rb.to_dict, ra.to_dict]
    ∧ rb.distance = ra.distance
    ∧ ra.vector.id < rb.vector.id := by
  have hg : OrchestratorService.gather_knn [("w1", "u1")]
      (fun _ => .ok [rb.to_dict, ra.to_dict]) = .ok [rb, ra] := rfl
  have hs : List.mergeSort [rb, ra] leDist = [rb, ra] :=
    List.mergeSort_of_sorted (by decide)
  refine ⟨?_, rfl, by rw [String.lt_iff_toList_lt]; decide⟩
  simp [OrchestratorService.search_knn, hg, hs]

/-- C8 amended: every merged coordinator result list is ordered by distance
ascending; equal-distance results keep their stable-sort encounter order,
with no id tie-break. -/
theorem C8_amended_sorted_by_distance
    (workers : List (String × String)) (net : String → Except Unit (List SRDict))
    (k : Nat) (out : List SRDict)
    (h : OrchestratorService.search_knn workers net k = .ok out) :
    out.Pairwise (fun x y => x.distance ≤ y.distance) := by
  unfold OrchestratorService.search_knn at h
  cases hg : OrchestratorService.gather_knn workers net with
  | error e => rw [hg] at h; cases h
  | ok all =>
    rw [hg] at h
    injection h with h
    subst h
    have hsorted : (all.mergeSort leDist).Pairwise (fun a b => leDist a b) :=
      List.sorted_mergeSort
        (fun a b c hab hbc => by
          simp only [leDist, decide_eq_true_eq] at *
          exact le_trans hab hbc)
        (fun a b => by
          simp only [leDist, Bool.or_eq_true, decide_eq_true_eq]
          exact le_total a.distance b.distance)
        all
    have htake : ((all.mergeSort leDist).take k).Pairwise (fun a b => leDist a b) :=
      hsorted.sublist (List.take_sublist k _)
    refine List.Pairwise.map _ ?_ htake
    intro a b hab
    simpa [leDist, SearchResult.to_dict] using hab

/-- Witness for the amended C8 at an empty worker set. -/
theorem C8_amended_witness :
    ([] : List SRDict).Pairwise (fun x y => x.distance ≤ y.distance) :=
  C8_amended_sorted_by_distance [] (fun _ => .error ()) 0 []
    (by simp [OrchestratorService.search_knn, OrchestratorService.gather_knn, pure, Except.pure,
      bind, Except.bind])

/-! ## Claim C2 -/

/-- C2: whenever the fan-out gathering succeeds with union `all`, the
coordinator's merged k-NN answer consists of results drawn from `all`, has
exactly `min k |all|` entries (hence at most `k`), is sorted ascending by
distance, and its distances are precisely the `k` smallest distances of
`all` (the first `k` of the ascending-sorted distance list). -/
theorem C2_merge_takes_k_smallest
    (workers : List (String × String)) (net : String → Except Unit (List SRDict))
    (k : Nat) (all : List SearchResult)
    (h : OrchestratorService.gather_knn workers net = .ok all) :
    ∃ out, OrchestratorService.search_knn workers net k = .ok out
      ∧ out.length = min k all.length
      ∧ out.Pairwise (fun x y => x.distance ≤ y.distance)
      ∧ out.map (fun x => x.distance)
          = ((all.map (fun r => r.distance)).mergeSort (fun a b => decide (a ≤ b))).take k
      ∧ ∀ x ∈ out, ∃ r ∈ all, x = r.to_dict := by
  refine ⟨((all.mergeSort leDist).take k).map SearchResult.to_dict, ?_, ?_, ?_, ?_, ?_⟩
  · unfold OrchestratorService.search_knn
    rw [h]
    rfl
  · simp
  · have hsorted : (all.mergeSort leDist).Pairwise (fun a b => leDist a b) :=
      List.sorted_mergeSort
        (fun a b c hab hbc => by
          simp only [leDist, decide_eq_true_eq] at *
          exact le_trans hab hbc)
        (fun a b => by
          simp only [leDist, Bool.or_eq_true, decide_eq_true_eq]
          exact le_total a.distance b.distance)
        all
    have htake : ((all.mergeSort leDist).take k).Pairwise (fun a b => leDist a b) :=
      hsorted.sublist (List.take_sublist k _)
    refine List.Pairwise.map _ ?_ htake
    intro a b hab
    simpa [leDist, SearchResult.to_dict] using hab
  · have hmap : (all.mergeSort leDist).map (fun r => r.distance)
        = (all.map (fun r => r.distance)).mergeSort (fun a b => decide (a ≤ b)) :=
      List.map_mergeSort (fun _ _ _ _ => rfl)
    calc (((all.mergeSort leDist).take k).map SearchResult.to_dict).map (fun x => x.distance)
        = ((all.mergeSort leDist).take k).map (fun r => r.distance) := by
          simp only [List.map_map]
          rfl
      _ = ((all.mergeSort leDist).map (fun r => r.distance)).take k := by
          rw [List.map_take]
      _ = ((all.map (fun r => r.distance)).mergeSort (fun a b => decide (a ≤ b))).take k := by
          rw [hmap]
  · intro x hx
    simp only [List.mem_map] at hx
    obtain ⟨r, hr, hre⟩ := hx
    exact ⟨r, List.mem_mergeSort.mp (List.mem_of_mem_take hr), hre.symm⟩

/-- Witness for C2 at an empty worker set (`all = []`, `k = 3`). -/
theorem C2_witness :
    ∃ out, OrchestratorService.search_knn [] (fun _ => .error ()) 3 = .ok out
      ∧ out.length = min 3 ([] : List SearchResult).length
      ∧ out.Pairwise (fun x y => x.distance ≤ y.distance)
      ∧ out.map (fun x => x.distance)
          = ((([] : List SearchResult).map (fun r => r.distance)).mergeSort
              (fun a b => decide (a ≤ b))).take 3
      ∧ ∀ x ∈ out, ∃ r ∈ ([] : List SearchResult), x = r.to_dict :=
  C2_merge_takes_k_smallest [] (fun _ => .error ()) 3 [] rfl

end VecSearch
